import Mathlib

/-!
Verification model of the build-file fixup engine (`merger` package):
rule squashing (`squashCgoLibrary`, `squashExpr`, `squashList`, `squashDict`)
and load-statement reconciliation (`FixLoads`, `fixLoad`), shallowly embedded
as pure Lean functions over a Starlark-like expression tree.
-/

/-- Comment groups attached to every expression node
(`Comments{Before, Suffix, After}` in the source AST). -/
structure Comments where
  before : List String
  suffix : List String
  after : List String
deriving Repr, DecidableEq

/-- The empty comment set (zero value of the Go struct). -/
def cNil : Comments := ⟨[], [], []⟩

/-- Concatenation of two comment sets, group by group, first's groups first. -/
def catComments (a b : Comments) : Comments :=
  ⟨a.before ++ b.before, a.suffix ++ b.suffix, a.after ++ b.after⟩

/-- The Starlark-like expression tree of the external `build` AST:
`LiteralExpr`, `StringExpr`, `ListExpr`, `DictExpr`, `KeyValueExpr`,
`BinaryExpr`, `CallExpr`, each node carrying its own comment groups. -/
inductive Expr where
  | lit (token : String) (com : Comments)
  | str (value : String) (com : Comments)
  | list (elems : List Expr) (com : Comments)
  | dict (entries : List Expr) (com : Comments)
  | keyValue (key : Expr) (value : Expr) (com : Comments)
  | binary (x : Expr) (op : String) (y : Expr) (com : Comments)
  | call (callee : Expr) (args : List Expr) (forceCompact : Bool) (com : Comments)
deriving Repr

mutual

/-- Structural boolean equality on expressions (the nested `List Expr`
prevents automatic derivation). -/
def beqE : Expr → Expr → Bool
  | .lit t c, .lit t' c' => t == t' && decide (c = c')
  | .str v c, .str v' c' => v == v' && decide (c = c')
  | .list es c, .list es' c' => beqL es es' && decide (c = c')
  | .dict es c, .dict es' c' => beqL es es' && decide (c = c')
  | .keyValue k v c, .keyValue k' v' c' => beqE k k' && beqE v v' && decide (c = c')
  | .binary x o y c, .binary x' o' y' c' =>
      beqE x x' && o == o' && beqE y y' && decide (c = c')
  | .call x as fc c, .call x' as' fc' c' =>
      beqE x x' && beqL as as' && fc == fc' && decide (c = c')
  | _, _ => false

/-- Structural boolean equality on expression lists. -/
def beqL : List Expr → List Expr → Bool
  | [], [] => true
  | a :: as, b :: bs => beqE a b && beqL as bs
  | _, _ => false

end

mutual

def beqE_iff : ∀ a b : Expr, beqE a b = true ↔ a = b
  | .lit t c, b => by
      cases b <;> simp [beqE]
  | .str v c, b => by
      cases b <;> simp [beqE]
  | .list es c, b => by
      cases b <;> simp [beqE, beqL_iff es _]
  | .dict es c, b => by
      cases b <;> simp [beqE, beqL_iff es _]
  | .keyValue k v c, b => by
      cases b <;> simp [beqE, beqE_iff k _, beqE_iff v _, and_assoc]
  | .binary x o y c, b => by
      cases b <;> simp [beqE, beqE_iff x _, beqE_iff y _, and_assoc]
  | .call x as fc c, b => by
      cases b <;> simp [beqE, beqE_iff x _, beqL_iff as _, and_assoc]

def beqL_iff : ∀ as bs : List Expr, beqL as bs = true ↔ as = bs
  | [], bs => by cases bs <;> simp [beqL]
  | a :: as, bs => by
      cases bs with
      | nil => simp [beqL]
      | cons b bs => simp [beqL, beqE_iff a b, beqL_iff as bs]

end

instance : DecidableEq Expr := fun a b => decidable_of_iff (beqE a b = true) (beqE_iff a b)

/-- A build file: an ordered sequence of top-level statements. -/
structure File where
  stmts : List Expr
deriving Repr, DecidableEq

/-- Arguments of a call expression (empty for any other node). -/
def argsOf : Expr → List Expr
  | .call _ args _ _ => args
  | _ => []

/-- Callee of a call expression (the node itself for any other node;
only applied to calls). -/
def calleeOf : Expr → Expr
  | .call x _ _ _ => x
  | e => e

/-- ForceCompact flag of a call expression. -/
def fcOf : Expr → Bool
  | .call _ _ fc _ => fc
  | _ => false

/-- Comment groups owned by a node. -/
def comOf : Expr → Comments
  | .lit _ c => c
  | .str _ c => c
  | .list _ c => c
  | .dict _ c => c
  | .keyValue _ _ c => c
  | .binary _ _ _ c => c
  | .call _ _ _ c => c

/-- String value of a `StringExpr` node, `none` otherwise (the Go type
assertion `e.(*bf.StringExpr)`). -/
def strVal? : Expr → Option String
  | .str v _ => some v
  | _ => none

/-- Whether a node is a `StringExpr`. -/
def isStrE (e : Expr) : Bool := (strVal? e).isSome

/-- List-part of a decomposed attribute value: the elements and comments of a
`ListExpr` (`*bf.ListExpr` in the source). -/
abbrev ListPart := List Expr × Comments

/-- Dict-part of a decomposed attribute value: the entries and comments of a
`DictExpr` (`*bf.DictExpr` in the source). -/
abbrev DictPart := List Expr × Comments

/-- Whether every entry of a dict that is a key/value pair has a string key.
Used by the shape check of `exprListAndDict`. -/
def dictKeysAllStrings (entries : List Expr) : Bool :=
  entries.all fun e =>
    match e with
    | .keyValue k _ _ => isStrE k
    | _ => true

/-- Modelled from the spec: `exprListAndDict`, the shape-decomposition helper
called by `squashExpr`, is not part of the provided source text (only its
call sites are). Per the spec it decomposes a value into an optional list
part and an optional dict part: nil gives (nil, nil); a `ListExpr` gives its
list; a call `select(dict)` whose sole argument is a dict with string keys
gives the dict; `list + select(dict)` gives both; it fails with
`UnrecognizedShape` on a call other than `select(...)`, a `select` whose sole
argument is not a dict, a dict with non-string keys, a `+` whose left operand
is not a list, and any other unsupported shape. -/
def exprListAndDict : Option Expr → Except String (Option ListPart × Option DictPart)
  | none => .ok (none, none)
  | some (.list elems c) => .ok (some (elems, c), none)
  | some (.call (.lit "select" _) [.dict entries dc] _ _) =>
      if dictKeysAllStrings entries then .ok (none, some (entries, dc))
      else .error "UnrecognizedShape"
  | some (.call _ _ _ _) => .error "UnrecognizedShape"
  | some (.binary (.list elems c) "+" (.call (.lit "select" _) [.dict entries dc] _ _) _) =>
      if dictKeysAllStrings entries then .ok (some (elems, c), some (entries, dc))
      else .error "UnrecognizedShape"
  | some _ => .error "UnrecognizedShape"

/-- `squashList` from the source: if either side is nil return the other;
otherwise concatenate the comment groups (x's first) and the elements
(x's first). -/
def squashList : Option ListPart → Option ListPart → Option ListPart
  | none, y => y
  | some x, none => some x
  | some (xe, xc), some (ye, yc) => some (xe ++ ye, catComments xc yc)

/-- `squashDict` from the source: if either side is nil return the other;
otherwise start from x (comment groups concatenated, x's first) and walk y's
entries. The source also builds an index `xCaseIndex` of x's string-keyed
entries and contains a branch that merges a colliding entry of y into x's
entry via `squashExpr`; but that branch re-asserts the whole entry `e` —
already established to be a `*bf.KeyValueExpr` — as a `*bf.StringExpr`
(`key, ok := e.(*bf.StringExpr)`, instead of asserting `kv.Key`). A node has
exactly one dynamic type, so the assertion always fails, the merge branch is
unreachable, and every entry of y is appended verbatim. The unreachable
branch (and the index that only feeds it) is therefore omitted here, and the
function never returns an error. -/
def squashDict : Option DictPart → Option DictPart → Except String (Option DictPart)
  | none, y => .ok y
  | some x, none => .ok (some x)
  | some (xe, xc), some (ye, yc) => .ok (some (xe ++ ye, catComments xc yc))

/-- `squashExpr` from the source: decompose both sides, squash the list parts
and the dict parts, and recombine. Note that when no list part results the
source returns the squashed dict itself (`return squashedDict, nil`), not the
`select(...)` call built just above; the `select` wrapper is only used in the
`list + select` recombination. -/
def squashExpr (x y : Option Expr) : Except String (Option Expr) := do
  let (xl, xd) ← exprListAndDict x
  let (yl, yd) ← exprListAndDict y
  let squashedList := squashList xl yl
  let squashedDict ← squashDict xd yd
  let squashedSelect : Option Expr :=
    squashedDict.map fun (entries, dc) =>
      .call (.lit "select" cNil) [.dict entries dc] false cNil
  match squashedList with
  | none => pure (squashedDict.map fun (entries, dc) => .dict entries dc)
  | some (elems, c) =>
      match squashedSelect with
      | none => pure (some (.list elems c))
      | some sel => pure (some (.binary (.list elems c) "+" sel cNil))

/-- Modelled from the spec: `config.DefaultCgoLibName`, the reserved default
name of a `cgo_library` rule, named in the spec's scenarios. -/
def defaultCgoLibName : String := "cgo_default_library"

/-- Modelled from the spec: `config.DefaultLibName`, the reserved default
name of a `go_library` rule, named in the spec's scenarios. -/
def defaultLibName : String := "go_default_library"

/-- Modelled from the spec: the "keep" marker predicate `shouldKeep`, an
external convention the spec treats as an opaque boolean flag over a node's
comment groups (a literal marker token appearing in a comment attached to
the node). -/
def shouldKeep (e : Expr) : Bool :=
  let c := comOf e
  (c.before ++ c.suffix ++ c.after).any fun s => s = "# keep"

/-- Modelled from the spec: `Rule.Attr` of the external rule view — the value
of the first attribute (a key/value-shaped argument with a bare-identifier
key) whose key matches, or absent. -/
def attrOf : List Expr → String → Option Expr
  | [], _ => none
  | a :: rest, key =>
      match a with
      | .keyValue (.lit k _) v _ => if k = key then some v else attrOf rest key
      | _ => attrOf rest key

/-- Modelled from the spec: `Rule.SetAttr` — update the value of the first
matching attribute in place (same position, key node kept), or append a new
attribute when the key is absent. -/
def setAttrArgs : List Expr → String → Expr → List Expr
  | [], key, v => [.keyValue (.lit key cNil) v cNil]
  | a :: rest, key, v =>
      match a with
      | .keyValue (.lit k kc) _ c =>
          if k = key then .keyValue (.lit k kc) v c :: rest
          else a :: setAttrArgs rest key v
      | _ => a :: setAttrArgs rest key v

/-- Modelled from the spec: `Rule.DelAttr` — remove the first matching
attribute, no-op when absent. -/
def delAttrArgs : List Expr → String → List Expr
  | [], _ => []
  | a :: rest, key =>
      match a with
      | .keyValue (.lit k _) _ _ =>
          if k = key then rest else a :: delAttrArgs rest key
      | _ => a :: delAttrArgs rest key

/-- Modelled from the spec: `Rule.Kind` — the called symbol of the rule's
call node when the callee is a bare identifier, empty otherwise. -/
def ruleKind (e : Expr) : String :=
  match calleeOf e with
  | .lit tok _ => tok
  | _ => ""

/-- Modelled from the spec: `Rule.Name` — the string value of the attribute
keyed `name`, empty when absent or not a string. -/
def ruleName (e : Expr) : String :=
  match attrOf (argsOf e) "name" with
  | some (.str v _) => v
  | _ => ""

/-- Whether a statement is a call at all (`stmt.(*bf.CallExpr)`). -/
def isCallE : Expr → Bool
  | .call _ _ _ _ => true
  | _ => false

/-- Whether a statement qualifies as the default-named `cgo_library` rule the
fixer squashes: a call of kind `cgo_library`, default cgo name, and no keep
marker. -/
def isCgoDefault (e : Expr) : Bool :=
  isCallE e && ruleKind e = "cgo_library" && ruleName e = defaultCgoLibName && !shouldKeep e

/-- Whether a statement is the default-named `go_library` rule: a call of
kind `go_library` with the default library name. -/
def isGoDefault (e : Expr) : Bool :=
  isCallE e && ruleKind e = "go_library" && ruleName e = defaultLibName

/-- First element of a list satisfying a predicate, together with its index
counted from `i`. Mirrors the source's scan that keeps the first match of
each kind and ignores (after logging) any later duplicates. -/
def findWithIdx (p : Expr → Bool) : Nat → List Expr → Option (Nat × Expr)
  | _, [] => none
  | i, s :: rest => if p s then some (i, s) else findWithIdx p (i + 1) rest

/-- The seven attribute keys `squashCgoLibrary` merges from `cgo_library`
into `go_library`. -/
def sevenKeys : List String :=
  ["cdeps", "clinkopts", "copts", "data", "deps", "gc_goopts", "srcs"]

/-- One step of the per-attribute squash loop of `squashCgoLibrary`: when
`cgo_library` carries the key, squash the target's current value with
`cgo_library`'s value; on success set the result, on failure leave the
target's value for that key untouched. -/
def squashStep (cgoArgs : List Expr) (acc : List Expr) (key : String) : List Expr :=
  match attrOf cgoArgs key with
  | none => acc
  | some cgoAttr =>
      match squashExpr (attrOf acc key) (some cgoAttr) with
      | .ok (some fixedAttr) => setAttrArgs acc key fixedAttr
      | .ok none => acc
      | .error _ => acc

/-- The per-attribute squash loop of `squashCgoLibrary` over the seven
merged keys. -/
def squashAttrs (cgoArgs : List Expr) (acc : List Expr) : List Expr :=
  sevenKeys.foldl (squashStep cgoArgs) acc

/-- The merged rule `squashCgoLibrary` builds: start from a copy of the
existing default `go_library` (or synthesize one with the default name and,
when present, `cgo_library`'s `visibility`); delete any `library` attribute;
force-set `cgo = True`; append `cgo_library`'s comment groups after the
target's own; then squash the seven attribute keys. Note `squashExpr` can
return `.ok none` only when both inputs are nil, which cannot happen here
since the `cgo_library` value is present; that case keeps the accumulator. -/
def buildFixed (go? : Option Expr) (cgoE : Expr) : Expr :=
  let base : Expr × List Expr × Bool × Comments :=
    match go? with
    | some g => (calleeOf g, argsOf g, fcOf g, comOf g)
    | none =>
        let a0 := setAttrArgs [] "name" (.str defaultLibName cNil)
        let a1 :=
          match attrOf (argsOf cgoE) "visibility" with
          | some vis => setAttrArgs a0 "visibility" vis
          | none => a0
        (.lit "go_library" cNil, a1, false, cNil)
  let a2 := setAttrArgs (delAttrArgs base.2.1 "library") "cgo" (.lit "True" cNil)
  let com := catComments base.2.2.2 (comOf cgoE)
  .call base.1 (squashAttrs (argsOf cgoE) a2) base.2.2.1 com

/-- `squashCgoLibrary` from the source: find the first qualifying
`cgo_library` and the first default `go_library`; if no `cgo_library`,
return the file unchanged; if the `go_library` carries a keep marker, just
delete the `cgo_library` statement; otherwise build the merged rule and
rebuild the statement list (replacing the `cgo_library` slot when no
`go_library` pre-existed, else deleting the `cgo_library` slot and replacing
the `go_library` slot at its shifted index). -/
def squashCgoLibrary (f : File) : File :=
  match findWithIdx isCgoDefault 0 f.stmts with
  | none => f
  | some (ci, cgoE) =>
      match findWithIdx isGoDefault 0 f.stmts with
      | some (gi, goE) =>
          if shouldKeep goE then ⟨f.stmts.eraseIdx ci⟩
          else
            let fixed := buildFixed (some goE) cgoE
            let gi' := if gi > ci then gi - 1 else gi
            ⟨(f.stmts.eraseIdx ci).set gi' fixed⟩
      | none => ⟨f.stmts.set ci (buildFixed none cgoE)⟩

/-- `FixFile` from the source: the file-level fixer is the cgo-library
squash. -/
def FixFile (f : File) : File := squashCgoLibrary f

/-- `knownLoads` from the source: the ordered registry of files the
generator loads symbols from and the symbols each file owns, symbols sorted
lexicographically within their entry. -/
def knownLoads : List (String × List String) :=
  [("@io_bazel_rules_go//go:def.bzl",
    ["cgo_library", "go_binary", "go_library", "go_prefix", "go_test"]),
   ("@io_bazel_rules_go//proto:def.bzl",
    ["go_grpc_library", "go_proto_library"])]

/-- `knownFiles` from the source: the set of registry file labels, derived
from `knownLoads` at initialization. -/
def knownFilesB (file : String) : Bool :=
  knownLoads.any fun l => l.1 = file

/-- `knownKinds` from the source: the map from a known symbol to the label
of the registry file that owns it, derived from `knownLoads` at
initialization (the symbol lists of distinct entries are disjoint, so first
match and the source's last-writer-wins map construction agree). -/
def knownKind? (kind : String) : Option String :=
  (knownLoads.find? fun l => l.2.contains kind).map (·.1)

/-- Sort key of a load-statement symbol argument: the string value of a
`StringExpr` (only applied to string nodes). -/
def strKey (e : Expr) : String := (strVal? e).getD ""

/-- Lexicographic comparison of character sequences by code point, the
order underlying Go's `<` on strings. -/
def strLeData : List Char → List Char → Bool
  | [], _ => true
  | _ :: _, [] => false
  | a :: as, b :: bs =>
      if a.toNat < b.toNat then true
      else if b.toNat < a.toNat then false
      else strLeData as bs

/-- Lexicographic comparison of strings. -/
def strLeB (a b : String) : Bool := strLeData a.data b.data

/-- The ordering `byString` the source sorts managed symbols with:
lexicographic comparison of string values. -/
def symLe (a b : Expr) : Prop := strLeB (strKey a) (strKey b) = true

instance : DecidableRel symLe := fun a b =>
  inferInstanceAs (Decidable (strLeB (strKey a) (strKey b) = true))

/-- Totality of the lexicographic comparison. -/
def strLeData_total : ∀ as bs, strLeData as bs = true ∨ strLeData bs as = true
  | [], _ => Or.inl rfl
  | _ :: _, [] => Or.inr rfl
  | a :: as, b :: bs => by
      by_cases h1 : a.toNat < b.toNat
      · exact Or.inl (by simp [strLeData, h1])
      · by_cases h2 : b.toNat < a.toNat
        · exact Or.inr (by simp [strLeData, h2])
        · rcases strLeData_total as bs with h | h
          · exact Or.inl (by simp [strLeData, h1, h2, h])
          · exact Or.inr (by simp [strLeData, h1, h2, h])

/-- Transitivity of the lexicographic comparison. -/
def strLeData_trans : ∀ as bs cs, strLeData as bs = true → strLeData bs cs = true →
    strLeData as cs = true
  | [], _, _ => fun _ _ => rfl
  | _ :: _, [], _ => fun h _ => by simp [strLeData] at h
  | _ :: _, _ :: _, [] => fun _ h => by simp [strLeData] at h
  | a :: as, b :: bs, c :: cs => fun h1 h2 => by
      simp only [strLeData] at h1 h2 ⊢
      by_cases hab : a.toNat < b.toNat
      · by_cases hbc : b.toNat < c.toNat
        · simp [Nat.lt_trans hab hbc]
        · rw [if_neg hbc] at h2
          by_cases hcb : c.toNat < b.toNat
          · rw [if_pos hcb] at h2; exact absurd h2 (by simp)
          · have hbceq : b.toNat = c.toNat :=
              Nat.le_antisymm (Nat.le_of_not_lt hcb) (Nat.le_of_not_lt hbc)
            simp [hbceq ▸ hab]
      · rw [if_neg hab] at h1
        by_cases hba : b.toNat < a.toNat
        · rw [if_pos hba] at h1; exact absurd h1 (by simp)
        · rw [if_neg hba] at h1
          have habeq : a.toNat = b.toNat :=
            Nat.le_antisymm (Nat.le_of_not_lt hba) (Nat.le_of_not_lt hab)
          by_cases hbc : b.toNat < c.toNat
          · simp [habeq ▸ hbc]
          · rw [if_neg hbc] at h2
            by_cases hcb : c.toNat < b.toNat
            · rw [if_pos hcb] at h2; exact absurd h2 (by simp)
            · rw [if_neg hcb] at h2
              have hbceq : b.toNat = c.toNat :=
                Nat.le_antisymm (Nat.le_of_not_lt hcb) (Nat.le_of_not_lt hbc)
              have haceq : a.toNat = c.toNat := habeq.trans hbceq
              simp [haceq ▸ (Nat.lt_irrefl a.toNat), strLeData_trans as bs cs h1 h2,
                Nat.le_of_eq haceq]

instance : IsTotal Expr symLe := ⟨fun _ _ => strLeData_total _ _⟩

instance : IsTrans Expr symLe := ⟨fun _ _ _ h h' => strLeData_trans _ _ _ h h'⟩

/-- Whether a string argument of a load statement is kept by `fixLoad`: it
is not a known symbol at all, or it is in the used set `kinds`
(`knownKinds[s.Value] == "" || kinds != nil && kinds[s.Value]`; a nil
used-set behaves as an empty one and is modelled as `[]`). Non-string
arguments are classified separately as other arguments. -/
def keepSymB (kinds : List String) (e : Expr) : Bool :=
  match e with
  | .str v _ => (knownKind? v).isNone || kinds.contains v
  | _ => false

/-- Number of known symbols `fixLoad` drops from an argument list because
they are no longer in the used set. -/
def removedCount (args : List Expr) (kinds : List String) : Nat :=
  ((args.drop 1).filter fun e => isStrE e && !keepSymB kinds e).length

/-- The used symbols `fixLoad` must newly insert: members of the used set
not already present among the kept string arguments. -/
def addedSyms (args : List Expr) (kinds : List String) : List String :=
  let loaded := ((args.drop 1).filter (keepSymB kinds)).filterMap strVal?
  kinds.filter fun k => !loaded.contains k

/-- Core of `fixLoad`, on the pieces of the (possibly synthesized) call:
partition the arguments after the file label into kept symbols and other
arguments, count removals and additions; when nothing changed return the
original node (or delete a symbol-less load); otherwise rewrite the
argument list as the label, the stably sorted symbols, then the other
arguments, deleting the statement when nothing but the label remains.
`List.insertionSort` is the classic stable insertion sort, matching the
source's `sort.Stable`. -/
def fixLoadCore (orig : Option Expr) (callee : Expr) (args : List Expr)
    (fc : Bool) (com : Comments) (kinds : List String) : Option Expr :=
  let tail := args.drop 1
  let symbols := tail.filter (keepSymB kinds)
  let otherArgs := tail.filter fun e => !isStrE e
  let removed := removedCount args kinds
  let addedKinds := addedSyms args kinds
  if addedKinds.length = 0 ∧ removed = 0 then
    if orig.isSome && args.length = 1 then none else orig
  else
    let allSyms :=
      List.insertionSort symLe (symbols ++ addedKinds.map fun k => Expr.str k cNil)
    let newArgs := args.take 1 ++ allSyms ++ otherArgs
    if newArgs.length = 1 then none else some (.call callee newArgs fc com)

/-- `fixLoad` from the source: update one load statement for a registry
file against the used-symbol set, or synthesize a compact new statement
when no statement exists; `none` means the statement is deleted. The Go
parameter is typed `*bf.CallExpr`, so a present argument is always a call;
the non-call fallback is unreachable and returns the input. -/
def fixLoad (load : Option Expr) (file : String) (kinds : List String) : Option Expr :=
  match load with
  | some (.call x args fc com) => fixLoadCore load x args fc com kinds
  | some e => some e
  | none => fixLoadCore none (.lit "load" cNil) [.str file cNil] true cNil kinds

/-- The file label of a load statement: present when the statement is a
call whose callee is the literal `load`, with a nonempty argument list
whose first argument is a string. Statements failing any of these checks
are skipped entirely by `FixLoads`. -/
def loadFileOf : Expr → Option String
  | .call (.lit tok _) (first :: _) _ _ => if tok = "load" then strVal? first else none
  | _ => none

/-- One managed load statement collected by `FixLoads`: its statement
index, registry file label, and original node. -/
structure LoadInfo where
  index : Nat
  file : String
  old : Expr
deriving Repr, DecidableEq

/-- The managed load statements of a file, in statement order, with their
indices counted from `i`: load statements whose label is a registry file. -/
def collectLoads : Nat → List Expr → List LoadInfo
  | _, [] => []
  | i, s :: rest =>
      match loadFileOf s with
      | some v =>
          if knownFilesB v then ⟨i, v, s⟩ :: collectLoads (i + 1) rest
          else collectLoads (i + 1) rest
      | none => collectLoads (i + 1) rest

/-- The symbols a load statement imports, for the externally-loaded set:
bare string arguments and `name = value` keyword arguments with a literal
left-hand side, after the file label. -/
def loadArgSyms (args : List Expr) : List String :=
  (args.drop 1).filterMap fun arg =>
    match arg with
    | .str v _ => some v
    | .binary (.lit t _) "=" _ _ => some t
    | _ => none

/-- The contribution of one statement to the externally-loaded set: the
imported symbols when the statement is a load of a non-registry file,
nothing otherwise. -/
def otherSymsOf (e : Expr) : List String :=
  match loadFileOf e with
  | some v => if knownFilesB v then [] else loadArgSyms (argsOf e)
  | none => []

/-- `otherLoadedKinds` from the source: every symbol loaded from a
non-registry file; these are never re-loaded from a registry file. -/
def otherLoadedKinds (stmts : List Expr) : List String :=
  (stmts.map otherSymsOf).flatten

/-- The callee kind of a top-level call: the token of a literal callee. -/
def callKindOf : Expr → Option String
  | .call (.lit tok _) _ _ _ => some tok
  | _ => none

/-- The stream of (owning registry file, symbol) pairs for every top-level
call whose kind is a known symbol not in the externally-loaded set. -/
def usedKindPairs (stmts : List Expr) (other : List String) : List (String × String) :=
  stmts.filterMap fun s =>
    match callKindOf s with
    | some kind =>
        match knownKind? kind with
        | some file => if other.contains kind then none else some (file, kind)
        | none => none
    | none => none

/-- Deduplication keeping first occurrences; models the set semantics of
the source's `usedKinds[file]` map (whose iteration order is immaterial:
`fixLoad` sorts the symbols it inserts). -/
def dedupFirst (l : List String) : List String :=
  l.foldl (fun acc k => if acc.contains k then acc else acc ++ [k]) []

/-- `usedKinds[file]` from the source: the set of known symbols owned by
`file` that occur as the callee kind of a top-level call and are not
externally loaded. An absent entry (a nil map) is modelled as `[]`, which
`fixLoad` treats identically. -/
def usedKindsFor (stmts : List Expr) (file : String) : List String :=
  dedupFirst ((usedKindPairs stmts (otherLoadedKinds stmts)).filterMap
    fun p => if p.1 = file then some p.2 else none)

/-- The contribution of one statement to `usedKindPairs`. -/
def usedKindOf (other : List String) (s : Expr) : Option (String × String) :=
  match callKindOf s with
  | some kind =>
      match knownKind? kind with
      | some file => if other.contains kind then none else some (file, kind)
      | none => none
  | none => none

/-- The fix pass over the collected loads: for each registry file in
registry order, the first load of that file is reconciled against the
used-symbol set, later loads of the same file against the empty set. Every
collected load's file is a registry file, so this per-load formulation with
a seen-files accumulator computes the same assignments as the source's
outer loop over `knownLoads`. -/
def fixedLoadsAux (uk : String → List String) (seen : List String) :
    List LoadInfo → List (LoadInfo × Option Expr)
  | [] => []
  | li :: rest =>
      let kinds := if seen.contains li.file then [] else uk li.file
      (li, fixLoad (some li.old) li.file kinds) :: fixedLoadsAux uk (li.file :: seen) rest

/-- The brand-new load statements `FixLoads` synthesizes, in registry
order: one for each registry file that has no load statement but does have
used symbols. -/
def newFirstLoads (loads : List LoadInfo) (uk : String → List String) : List Expr :=
  knownLoads.filterMap fun l =>
    if loads.any fun li => li.file = l.1 then none
    else fixLoad none l.1 (uk l.1)

/-- The rebuild loop of `FixLoads`: replay the original statements in
order, substituting each managed load's fixed form and omitting loads fixed
to deletion. Mirrors the source's two-pointer walk (`loadIndex`). -/
def replay : Nat → List Expr → List (LoadInfo × Option Expr) → List Expr
  | _, [], _ => []
  | i, s :: rest, [] => s :: replay (i + 1) rest []
  | i, s :: rest, (li, fx) :: qs =>
      if li.index = i then
        match fx with
        | some w => w :: replay (i + 1) rest qs
        | none => replay (i + 1) rest qs
      else s :: replay (i + 1) rest ((li, fx) :: qs)

/-- `FixLoads` from the source: collect managed loads and externally loaded
symbols, compute the used symbols per registry file, fix every managed load
(first-per-file against the used set, the rest against the empty set),
synthesize loads for registry files with used symbols but no statement, and
rebuild the file with the new loads first unless nothing changed. Change
detection compares fixed nodes with the originals (the source compares
pointers; `fixLoad` returns the original node exactly when nothing
changed, and a structurally different one otherwise). -/
def FixLoads (f : File) : File :=
  let loads := collectLoads 0 f.stmts
  let uk := fun file => usedKindsFor f.stmts file
  let fls := fixedLoadsAux uk [] loads
  let nfl := newFirstLoads loads uk
  let changed := !nfl.isEmpty || fls.any fun q => q.2 ≠ some q.1.old
  if changed then ⟨nfl ++ replay 0 f.stmts fls⟩ else f

/-- The used-symbol sets of a file, as a function of the registry file. -/
def ukOf (f : File) : String → List String := fun file => usedKindsFor f.stmts file

/-- The managed load statements of a file. -/
def loadsOf (f : File) : List LoadInfo := collectLoads 0 f.stmts

/-- The managed load statements of a file with their fixed forms. -/
def flsOf (f : File) : List (LoadInfo × Option Expr) := fixedLoadsAux (ukOf f) [] (loadsOf f)

/-- The load statements `FixLoads` synthesizes for a file. -/
def newLoadsOf (f : File) : List Expr := newFirstLoads (loadsOf f) (ukOf f)

/-- The original statements of a file replayed with managed loads
substituted by their fixed forms (deletions omitted). -/
def replayOf (f : File) : List Expr := replay 0 f.stmts (flsOf f)

/-- Registry symbols among the string arguments (after the file label) of a
load statement. -/
def knownSymsOfLoad (e : Expr) : List String :=
  (((argsOf e).drop 1).filterMap strVal?).filter fun v => (knownKind? v).isSome

/-- All registry symbols loaded from `file` by the load statements of a
statement list labelled with `file`. -/
def loadedKnownSyms (stmts : List Expr) (file : String) : List String :=
  ((stmts.filter fun s => loadFileOf s = some file).map knownSymsOfLoad).flatten

/-- Shape of a rewritten load statement's argument list: after the file
label, a block of string symbols sorted by string value followed by the
non-string other arguments. The managed symbols are a subsequence of the
sorted string block, hence themselves sorted and ahead of every other
argument. -/
def managedSortedArgs (e : Expr) : Prop :=
  ∃ syms others, (argsOf e).drop 1 = syms ++ others ∧
    (∀ a ∈ syms, isStrE a = true) ∧ (∀ a ∈ others, isStrE a = false) ∧
    syms.Pairwise symLe

/-- Whether a statement is a managed load: a load statement whose file
label is a registry file. -/
def managedB (e : Expr) : Bool :=
  match loadFileOf e with
  | some v => knownFilesB v
  | none => false

/-- The (file, statement) pairs of the managed loads of a statement list;
the index-free projection of `collectLoads`. -/
def loadSeq (stmts : List Expr) : List (String × Expr) :=
  stmts.filterMap fun s =>
    match loadFileOf s with
    | some v => if knownFilesB v then some (v, s) else none
    | none => none

/-- The fix pass on (file, statement) pairs; the index-free projection of
`fixedLoadsAux`. -/
def fixedSeq (uk : String → List String) : List String → List (String × Expr) →
    List ((String × Expr) × Option Expr)
  | _, [] => []
  | seen, (F, o) :: rest =>
      ((F, o), fixLoad (some o) F (if seen.contains F then [] else uk F)) ::
        fixedSeq uk (F :: seen) rest

/-- The (file, fixed statement) pairs of the loads a fix pass keeps
(deletions dropped). -/
def keptOf (l : List ((String × Expr) × Option Expr)) : List (String × Expr) :=
  l.filterMap fun p => p.2.map fun w => (p.1.1, w)

/-- A string expression without comments. -/
def eStr (v : String) : Expr := .str v cNil

/-- A literal expression without comments. -/
def eLit (t : String) : Expr := .lit t cNil

/-- A rule attribute argument `key = value`. -/
def kvA (k : String) (v : Expr) : Expr := .keyValue (eLit k) v cNil

/-- A call statement of a given kind. -/
def callE (kind : String) (args : List Expr) : Expr := .call (eLit kind) args false cNil

/-- A non-compact load statement of symbols from a file. -/
def loadE (file : String) (syms : List String) : Expr :=
  .call (eLit "load") (eStr file :: syms.map eStr) false cNil

/-- A compact load statement, the shape `fixLoad` synthesizes. -/
def loadC (file : String) (syms : List String) : Expr :=
  .call (eLit "load") (eStr file :: syms.map eStr) true cNil

/-- The registry label of the Go rules definition file. -/
def godefLabel : String := "@io_bazel_rules_go//go:def.bzl"

/-- A bare default-named `cgo_library` rule. -/
def cgoBare : Expr := callE "cgo_library" [kvA "name" (eStr defaultCgoLibName)]

/-- A file containing two default-named `cgo_library` rules (the duplicate
anomaly the source logs and skips). -/
def fileTwoCgo : File := ⟨[cgoBare, cgoBare]⟩

/-- A default-named `cgo_library` with an extra attribute `foo`. -/
def cgoWithFoo : Expr :=
  callE "cgo_library" [kvA "name" (eStr defaultCgoLibName), kvA "foo" (eStr "bar")]

/-- A default-named `go_library` with a `copts` list. -/
def goWithCopts : Expr :=
  callE "go_library" [kvA "name" (eStr defaultLibName), kvA "copts" (.list [eStr "-g"] cNil)]

/-- A default-named `cgo_library` whose `copts` value has an unsupported
shape (a call to something other than `select`) and whose `srcs` is a
plain list. -/
def cgoBadCopts : Expr :=
  callE "cgo_library"
    [kvA "name" (eStr defaultCgoLibName), kvA "copts" (callE "foo" []),
     kvA "srcs" (.list [eStr "a.go"] cNil)]

/-- A default-named `go_library` carrying an attribute `testonly` outside
the merged key set. -/
def goWithExtra : Expr :=
  callE "go_library" [kvA "name" (eStr defaultLibName), kvA "testonly" (eLit "True")]

/-- Failing input for the squash-dict merge: a dict `x` with one
string-keyed entry. -/
def c1x : DictPart :=
  ([Expr.keyValue (eStr "//conditions:darwin") (.list [eStr "x.go"] cNil) cNil], cNil)

/-- Failing input for the squash-dict merge: a dict `y` whose sole entry
collides with `x`'s key. -/
def c1y : DictPart :=
  ([Expr.keyValue (eStr "//conditions:darwin") (.list [eStr "y.go"] cNil) cNil], cNil)

/-- C1: on two dicts with the same string key, `squashDict` appends `y`'s
key/value entry verbatim after `x`'s (leaving a duplicate key) instead of
replacing `x`'s value in place with the recursive `squashExpr` of the two
values, because the merge branch re-asserts the entry itself (not its key)
as a string and never fires. -/
theorem C1_squashDict_appends_colliding_entry :
    squashDict (some c1x) (some c1y) =
      .ok (some ([Expr.keyValue (eStr "//conditions:darwin") (.list [eStr "x.go"] cNil) cNil,
                  Expr.keyValue (eStr "//conditions:darwin") (.list [eStr "y.go"] cNil) cNil],
                 cNil)) ∧
    squashDict (some c1x) (some c1y) ≠
      .ok (some ([Expr.keyValue (eStr "//conditions:darwin")
                    (.list [eStr "x.go", eStr "y.go"] cNil) cNil],
                 cNil)) := by
  refine ⟨rfl, fun h => absurd (congrArg Except.toOption h) (by decide)⟩

/-- C5: `squashList` returns the other side when one side is nil, and
otherwise concatenates elements verbatim (so the element count is the sum
of the inputs' counts) and concatenates each comment group, x's first. -/
theorem C5_squashList_concatenates :
    (∀ y, squashList none y = y) ∧
    (∀ x, squashList x none = x) ∧
    (∀ xe xc ye yc,
      squashList (some (xe, xc)) (some (ye, yc)) = some (xe ++ ye, catComments xc yc) ∧
      (xe ++ ye).length = xe.length + ye.length ∧
      (catComments xc yc).before = xc.before ++ yc.before ∧
      (catComments xc yc).suffix = xc.suffix ++ yc.suffix ∧
      (catComments xc yc).after = xc.after ++ yc.after) := by
  refine ⟨fun y => rfl, fun x => ?_,
    fun xe xc ye yc => ⟨rfl, List.length_append _ _, rfl, rfl, rfl⟩⟩
  cases x with
  | none => rfl
  | some p => rfl

theorem attrOf_setAttr_self (args : List Expr) (key : String) (v : Expr) :
    attrOf (setAttrArgs args key v) key = some v := by
  induction args with
  | nil => simp [setAttrArgs, attrOf]
  | cons a rest ih =>
      cases a <;> try (simp [setAttrArgs, attrOf, ih]; done)
      case keyValue k w c =>
        cases k <;> try (simp [setAttrArgs, attrOf, ih]; done)
        case lit t kc =>
          by_cases hk : t = key
          · simp [setAttrArgs, attrOf, hk]
          · simp [setAttrArgs, attrOf, hk, ih]

theorem attrOf_setAttr_ne (args : List Expr) (key k : String) (v : Expr) (h : k ≠ key) :
    attrOf (setAttrArgs args key v) k = attrOf args k := by
  induction args with
  | nil => simp [setAttrArgs, attrOf, Ne.symm h]
  | cons a rest ih =>
      cases a <;> try (simp [setAttrArgs, attrOf, ih]; done)
      case keyValue kx w c =>
        cases kx <;> try (simp [setAttrArgs, attrOf, ih]; done)
        case lit t kc =>
          by_cases hk : t = key
          · subst hk
            simp [setAttrArgs, attrOf, Ne.symm h]
          · by_cases htk : t = k <;> simp [setAttrArgs, attrOf, hk, htk, ih, h]

theorem attrOf_delAttr_ne (args : List Expr) (key k : String) (h : k ≠ key) :
    attrOf (delAttrArgs args key) k = attrOf args k := by
  induction args with
  | nil => simp [delAttrArgs, attrOf]
  | cons a rest ih =>
      cases a <;> try (simp [delAttrArgs, attrOf, ih]; done)
      case keyValue kx w c =>
        cases kx <;> try (simp [delAttrArgs, attrOf, ih]; done)
        case lit t kc =>
          by_cases hk : t = key
          · subst hk
            simp [delAttrArgs, attrOf, Ne.symm h, ih]
          · by_cases htk : t = k <;> simp [delAttrArgs, attrOf, hk, htk, ih, h]

theorem attrOf_delAttr_none (args : List Expr) (key k : String)
    (h : attrOf args k = none) : attrOf (delAttrArgs args key) k = none := by
  induction args with
  | nil => simp [delAttrArgs, attrOf]
  | cons a rest ih =>
      cases a <;> try (simp [delAttrArgs, attrOf] at h ⊢; exact ih h)
      case keyValue kx w c =>
        cases kx <;> try (simp [delAttrArgs, attrOf] at h ⊢; exact ih h)
        case lit t kc =>
          by_cases htk : t = k
          · simp [attrOf, htk] at h
          · by_cases hk : t = key
            · simp only [attrOf, htk, if_false] at h
              simpa [delAttrArgs, hk] using h
            · simp only [attrOf, htk, if_false] at h
              simp [delAttrArgs, attrOf, hk, htk, ih h]

theorem attrOf_squashStep_ne (cgoArgs acc : List Expr) (key k : String) (h : k ≠ key) :
    attrOf (squashStep cgoArgs acc key) k = attrOf acc k := by
  simp only [squashStep]
  split
  · rfl
  · split
    · exact attrOf_setAttr_ne _ _ _ _ h
    · rfl
    · rfl

theorem attrOf_squashFold_notmem (cgoArgs : List Expr) (keys : List String)
    (acc : List Expr) (k : String) (h : k ∉ keys) :
    attrOf (List.foldl (squashStep cgoArgs) acc keys) k = attrOf acc k := by
  induction keys generalizing acc with
  | nil => rfl
  | cons key rest ih =>
      simp only [List.foldl_cons]
      rw [ih _ (fun hm => h (List.mem_cons_of_mem _ hm)),
        attrOf_squashStep_ne _ _ _ _
          (fun he => h (by rw [he]; exact List.mem_cons_self _ _))]

theorem attrOf_squashFold_mem (cgoArgs : List Expr) (keys : List String)
    (acc : List Expr) (k : String) (hnd : keys.Nodup) (hm : k ∈ keys) :
    attrOf (List.foldl (squashStep cgoArgs) acc keys) k =
      match attrOf cgoArgs k with
      | none => attrOf acc k
      | some cgoAttr =>
          match squashExpr (attrOf acc k) (some cgoAttr) with
          | .ok (some fixedAttr) => some fixedAttr
          | _ => attrOf acc k := by
  induction keys generalizing acc with
  | nil => cases hm
  | cons key rest ih =>
      simp only [List.foldl_cons]
      rcases List.mem_cons.mp hm with he | hmr
      · subst he
        have hnotin : k ∉ rest := (List.nodup_cons.mp hnd).1
        rw [attrOf_squashFold_notmem _ _ _ _ hnotin]
        rcases h1 : attrOf cgoArgs k with _ | cga
        · simp [squashStep, h1]
        · rcases h2 : squashExpr (attrOf acc k) (some cga) with msg | v
          · simp [squashStep, h1, h2]
          · rcases v with _ | vv
            · simp [squashStep, h1, h2]
            · simp [squashStep, h1, h2, attrOf_setAttr_self]
      · have hne : k ≠ key := by
          rintro rfl
          exact absurd hmr (List.nodup_cons.mp hnd).1
        rw [ih _ (List.nodup_cons.mp hnd).2 hmr,
          attrOf_squashStep_ne _ _ _ _ hne]

theorem buildFixed_some (g cgoE : Expr) :
    buildFixed (some g) cgoE =
      .call (calleeOf g)
        (squashAttrs (argsOf cgoE)
          (setAttrArgs (delAttrArgs (argsOf g) "library") "cgo" (.lit "True" cNil)))
        (fcOf g) (catComments (comOf g) (comOf cgoE)) := rfl

theorem buildFixed_none_novis (cgoE : Expr)
    (hv : attrOf (argsOf cgoE) "visibility" = none) :
    buildFixed none cgoE =
      .call (.lit "go_library" cNil)
        (squashAttrs (argsOf cgoE)
          (setAttrArgs (delAttrArgs (setAttrArgs [] "name" (.str defaultLibName cNil))
            "library") "cgo" (.lit "True" cNil)))
        false (catComments cNil (comOf cgoE)) := by
  simp [buildFixed, hv]

theorem buildFixed_none_vis (cgoE vis : Expr)
    (hv : attrOf (argsOf cgoE) "visibility" = some vis) :
    buildFixed none cgoE =
      .call (.lit "go_library" cNil)
        (squashAttrs (argsOf cgoE)
          (setAttrArgs (delAttrArgs
            (setAttrArgs (setAttrArgs [] "name" (.str defaultLibName cNil)) "visibility" vis)
            "library") "cgo" (.lit "True" cNil)))
        false (catComments cNil (comOf cgoE)) := by
  simp [buildFixed, hv]

/-- C10: as stated the claim fails at the structural keys the fixer sets
itself. The file contains only a default-named `cgo_library` (which, like
every rule, carries a `name` attribute — not `visibility`, not one of the
seven merged keys), no `go_library` exists, yet the resulting rule carries
a `name` attribute. -/
theorem C10_counterexample :
    attrOf (argsOf cgoWithFoo) "name" = some (eStr defaultCgoLibName) ∧
    "name" ∉ sevenKeys ∧ "name" ≠ "visibility" ∧
    findWithIdx isGoDefault 0 [cgoWithFoo] = none ∧
    (squashCgoLibrary ⟨[cgoWithFoo]⟩).stmts =
      [callE "go_library" [kvA "name" (eStr defaultLibName), kvA "cgo" (eLit "True")]] ∧
    attrOf (argsOf (callE "go_library"
      [kvA "name" (eStr defaultLibName), kvA "cgo" (eLit "True")])) "name" ≠ none := by
  decide

/-- C10 (amended): apart from `visibility` (copied on synthesis), the seven
merged keys, and the structural keys `name` and `cgo` that the fixer sets
itself, an attribute key is present on the merged rule only when a
pre-existing `go_library` already carried it; in particular no other
attribute of `cgo_library` is transferred. -/
theorem C10_no_extra_attr_transfer (go? : Option Expr) (cgoE : Expr) (k : String)
    (h7 : k ∉ sevenKeys) (hv : k ≠ "visibility") (hn : k ≠ "name") (hcg : k ≠ "cgo")
    (hne : attrOf (argsOf (buildFixed go? cgoE)) k ≠ none) :
    ∃ goE, go? = some goE ∧ attrOf (argsOf goE) k ≠ none := by
  cases go? with
  | some g =>
      refine ⟨g, rfl, fun hgn => hne ?_⟩
      rw [buildFixed_some]
      show attrOf (squashAttrs (argsOf cgoE) _) k = none
      unfold squashAttrs
      rw [attrOf_squashFold_notmem _ _ _ _ h7, attrOf_setAttr_ne _ _ _ _ hcg,
        attrOf_delAttr_none _ _ _ hgn]
  | none =>
      exfalso
      apply hne
      rcases hvis : attrOf (argsOf cgoE) "visibility" with _ | vis
      · rw [buildFixed_none_novis _ hvis]
        show attrOf (squashAttrs (argsOf cgoE) _) k = none
        unfold squashAttrs
        rw [attrOf_squashFold_notmem _ _ _ _ h7, attrOf_setAttr_ne _ _ _ _ hcg,
          attrOf_delAttr_none _ _ _ (by rw [attrOf_setAttr_ne _ _ _ _ hn]; rfl)]
      · rw [buildFixed_none_vis _ _ hvis]
        show attrOf (squashAttrs (argsOf cgoE) _) k = none
        unfold squashAttrs
        rw [attrOf_squashFold_notmem _ _ _ _ h7, attrOf_setAttr_ne _ _ _ _ hcg,
          attrOf_delAttr_none _ _ _
            (by rw [attrOf_setAttr_ne _ _ _ _ hv, attrOf_setAttr_ne _ _ _ _ hn]; rfl)]

/-- Witness for C10's amended theorem at a concrete merge. -/
theorem C10_no_extra_attr_transfer_witness :
    ("testonly" ∉ sevenKeys) ∧ "testonly" ≠ "visibility" ∧ "testonly" ≠ "name" ∧
    "testonly" ≠ "cgo" ∧
    attrOf (argsOf (buildFixed (some goWithExtra) cgoBare)) "testonly" ≠ none ∧
    (∃ goE, some goWithExtra = some goE ∧ attrOf (argsOf goE) "testonly" ≠ none) :=
  ⟨by decide, by decide, by decide, by decide, by decide,
   C10_no_extra_attr_transfer (some goWithExtra) cgoBare "testonly" (by decide) (by decide)
     (by decide) (by decide) (by decide)⟩

theorem findWithIdx_eq_none_iff (p : Expr → Bool) (i : Nat) (l : List Expr) :
    findWithIdx p i l = none ↔ ∀ s ∈ l, p s = false := by
  induction l generalizing i with
  | nil => simp [findWithIdx]
  | cons a rest ih =>
      by_cases h : p a <;> simp [findWithIdx, h, ih]

theorem findWithIdx_some (p : Expr → Bool) (i : Nat) (l : List Expr) (j : Nat) (e : Expr)
    (h : findWithIdx p i l = some (j, e)) : i ≤ j ∧ l[j - i]? = some e ∧ p e = true := by
  induction l generalizing i with
  | nil => simp [findWithIdx] at h
  | cons a rest ih =>
      by_cases hp : p a
      · simp [findWithIdx, hp] at h
        obtain ⟨hj, he⟩ := h
        subst hj
        subst he
        simp [hp]
      · simp only [findWithIdx, hp, if_false, Bool.false_eq_true] at h
        obtain ⟨h1, h2, h3⟩ := ih (i + 1) h
        refine ⟨by omega, ?_, h3⟩
        have hji : j - i = (j - (i + 1)) + 1 := by omega
        rw [hji]
        simpa using h2

theorem countP_set_get (p : Expr → Bool) (l : List Expr) :
    ∀ (i : Nat) (e b : Expr), l[i]? = some e →
      ((l.set i b).countP p) + (if p e then 1 else 0) =
        l.countP p + (if p b then 1 else 0) := by
  induction l with
  | nil => intro i e b h; simp at h
  | cons a rest ih =>
      intro i e b h
      cases i with
      | zero =>
          simp at h
          subst h
          simp [List.countP_cons]
          omega
      | succ n =>
          simp at h
          simp [List.countP_cons]
          have := ih n e b h
          omega

theorem countP_eraseIdx_get (p : Expr → Bool) (l : List Expr) :
    ∀ (i : Nat) (e : Expr), l[i]? = some e →
      ((l.eraseIdx i).countP p) + (if p e then 1 else 0) = l.countP p := by
  induction l with
  | nil => intro i e h; simp at h
  | cons a rest ih =>
      intro i e h
      cases i with
      | zero =>
          simp at h
          subst h
          simp [List.countP_cons]
      | succ n =>
          simp at h
          simp [List.countP_cons]
          have := ih n e h
          omega

theorem countP_pos_of_get (p : Expr → Bool) (l : List Expr) (i : Nat) (e : Expr)
    (h : l[i]? = some e) (hp : p e = true) : 0 < l.countP p := by
  have hm : e ∈ l := by
    have hi : i < l.length := (List.getElem?_eq_some.mp h).1
    have : l[i] = e := by simpa [List.getElem?_eq_getElem hi] using h
    exact this ▸ List.getElem_mem hi
  exact List.countP_pos_iff.mpr ⟨e, hm, hp⟩

theorem calleeOf_of_ruleKind (e : Expr) (s : String) (hs : ruleKind e = s)
    (hne : s ≠ "") : ∃ c, calleeOf e = .lit s c := by
  unfold ruleKind at hs
  cases hcal : calleeOf e with
  | lit tok c =>
      rw [hcal] at hs
      simp at hs
      exact ⟨c, by rw [hs]⟩
  | str v c => rw [hcal] at hs; exact absurd hs.symm hne
  | list es c => rw [hcal] at hs; exact absurd hs.symm hne
  | dict es c => rw [hcal] at hs; exact absurd hs.symm hne
  | keyValue a b c => rw [hcal] at hs; exact absurd hs.symm hne
  | binary a o b c => rw [hcal] at hs; exact absurd hs.symm hne
  | call a as fc c => rw [hcal] at hs; exact absurd hs.symm hne

theorem isCgoDefault_buildFixed_some (g cgoE : Expr) (hg : isGoDefault g = true) :
    isCgoDefault (buildFixed (some g) cgoE) = false := by
  have hk : ruleKind g = "go_library" := by
    simp [isGoDefault, and_assoc] at hg
    exact hg.2.1
  obtain ⟨c, hcal⟩ := calleeOf_of_ruleKind g _ hk (by decide)
  rw [buildFixed_some, hcal]
  simp [isCgoDefault, ruleKind, calleeOf]

theorem isCgoDefault_buildFixed_none (cgoE : Expr) :
    isCgoDefault (buildFixed none cgoE) = false := by
  rcases hvis : attrOf (argsOf cgoE) "visibility" with _ | vis
  · rw [buildFixed_none_novis _ hvis]
    simp [isCgoDefault, ruleKind, calleeOf]
  · rw [buildFixed_none_vis _ _ hvis]
    simp [isCgoDefault, ruleKind, calleeOf]

theorem squash_eq_of_none (f : File) (h : findWithIdx isCgoDefault 0 f.stmts = none) :
    squashCgoLibrary f = f := by
  unfold squashCgoLibrary
  rw [h]

theorem countP_squash_zero (f : File) (h : f.stmts.countP isCgoDefault ≤ 1) :
    (squashCgoLibrary f).stmts.countP isCgoDefault = 0 := by
  rcases hc : findWithIdx isCgoDefault 0 f.stmts with _ | ⟨ci, cgoE⟩
  · rw [squash_eq_of_none f hc]
    apply List.countP_eq_zero.mpr
    intro s hs
    simp [(findWithIdx_eq_none_iff _ _ _).mp hc s hs]
  · obtain ⟨hle, hget, hp⟩ := findWithIdx_some _ 0 _ _ _ hc
    rw [Nat.sub_zero] at hget
    have hpos := countP_pos_of_get isCgoDefault f.stmts ci cgoE hget hp
    have hcount1 : f.stmts.countP isCgoDefault = 1 := by omega
    unfold squashCgoLibrary
    rw [hc]
    rcases hg : findWithIdx isGoDefault 0 f.stmts with _ | ⟨gi, goE⟩
    · show (f.stmts.set ci (buildFixed none cgoE)).countP isCgoDefault = 0
      have hset := countP_set_get isCgoDefault f.stmts ci cgoE (buildFixed none cgoE) hget
      rw [hp, isCgoDefault_buildFixed_none] at hset
      simp at hset
      omega
    · obtain ⟨hgle, hgget, hgp⟩ := findWithIdx_some _ 0 _ _ _ hg
      have herase := countP_eraseIdx_get isCgoDefault f.stmts ci cgoE hget
      rw [hp] at herase
      simp at herase
      have h0 : (f.stmts.eraseIdx ci).countP isCgoDefault = 0 := by omega
      by_cases hkeep : shouldKeep goE
      · simp only [hkeep, if_true]
        exact h0
      · simp only [hkeep, Bool.false_eq_true, if_false]
        apply List.countP_eq_zero.mpr
        intro s hs
        rcases List.mem_or_eq_of_mem_set hs with hmem | heq
        · simpa using List.countP_eq_zero.mp h0 s hmem
        · rw [heq, isCgoDefault_buildFixed_some _ _ hgp]
          simp

/-- C4: as universally stated the claim fails: with two default-named
`cgo_library` rules the fixer keeps only the first, a `cgo_library`
survives the first pass, and the second pass changes the file again. -/
theorem C4_counterexample :
    squashCgoLibrary (squashCgoLibrary fileTwoCgo) ≠ squashCgoLibrary fileTwoCgo := by
  decide

/-- C4 (amended): for every file with at most one default-named, unkept
`cgo_library` statement, the Cgo-Library Fixer is idempotent — after one
pass no such statement remains, so the second pass returns its input
unchanged. -/
theorem C4_cgo_fixer_idempotent_of_unique (f : File)
    (h : f.stmts.countP isCgoDefault ≤ 1) :
    squashCgoLibrary (squashCgoLibrary f) = squashCgoLibrary f :=
  squash_eq_of_none _ ((findWithIdx_eq_none_iff _ _ _).mpr (fun s hs => by
    simpa using List.countP_eq_zero.mp (countP_squash_zero f h) s hs))

/-- Witness for C4's amended theorem at a concrete one-rule file. -/
theorem C4_cgo_fixer_idempotent_of_unique_witness :
    (⟨[cgoBare]⟩ : File).stmts.countP isCgoDefault ≤ 1 ∧
    squashCgoLibrary (squashCgoLibrary ⟨[cgoBare]⟩) = squashCgoLibrary ⟨[cgoBare]⟩ :=
  ⟨by decide, C4_cgo_fixer_idempotent_of_unique _ (by decide)⟩

theorem attrOf_buildFixed_none (cgoE : Expr) (kk : String) (h7 : kk ∈ sevenKeys) :
    attrOf (argsOf (buildFixed none cgoE)) kk =
      match attrOf (argsOf cgoE) kk with
      | none => none
      | some cgoAttr =>
          match squashExpr none (some cgoAttr) with
          | .ok (some fixedAttr) => some fixedAttr
          | _ => none := by
  have hk4 : ∀ k ∈ sevenKeys,
      k ≠ "library" ∧ k ≠ "cgo" ∧ k ≠ "name" ∧ k ≠ "visibility" := by decide
  obtain ⟨hl, hc, hn, hv⟩ := hk4 kk h7
  have hbase : ∀ a1, attrOf a1 kk = none →
      attrOf (setAttrArgs (delAttrArgs a1 "library") "cgo" (.lit "True" cNil)) kk =
        none := fun a1 h1 => by
    rw [attrOf_setAttr_ne _ _ _ _ hc, attrOf_delAttr_ne _ _ _ hl, h1]
  rcases hvis : attrOf (argsOf cgoE) "visibility" with _ | vis
  · rw [buildFixed_none_novis _ hvis]
    show attrOf (squashAttrs (argsOf cgoE) _) kk = _
    unfold squashAttrs
    rw [attrOf_squashFold_mem _ _ _ _ (by decide) h7,
      hbase _ (by rw [attrOf_setAttr_ne _ _ _ _ hn]; rfl)]
  · rw [buildFixed_none_vis _ _ hvis]
    show attrOf (squashAttrs (argsOf cgoE) _) kk = _
    unfold squashAttrs
    rw [attrOf_squashFold_mem _ _ _ _ (by decide) h7,
      hbase _ (by rw [attrOf_setAttr_ne _ _ _ _ hv, attrOf_setAttr_ne _ _ _ _ hn]; rfl)]

/-- C7: for every file the Cgo-Library Fixer processes — whether the target
default `go_library` pre-exists (`go? = some`) or is synthesized from the
`cgo_library` (`go? = none`) — when squashing one of the seven attribute
keys fails with `UnrecognizedShape`, the merged rule keeps the target's own
value for that key (its pre-existing value, or absent for a synthesized
target), every other key still gets its successful squash result, the rest
of the file is exactly the original statements with the `cgo_library`
slot replaced (synthesized case) or removed and the `go_library` slot
replaced (pre-existing case), and the file-level fixer returns a file (no
error escapes). -/
theorem C7_attr_failure_isolated (f : File) (ci : Nat) (cgoE a : Expr)
    (go? : Option (Nat × Expr)) (key msg : String)
    (hc : findWithIdx isCgoDefault 0 f.stmts = some (ci, cgoE))
    (hg : findWithIdx isGoDefault 0 f.stmts = go?)
    (hkeep : ∀ gi goE, go? = some (gi, goE) → shouldKeep goE = false)
    (h7 : key ∈ sevenKeys)
    (ha : attrOf (argsOf cgoE) key = some a)
    (herr : squashExpr ((go?.map Prod.snd).bind fun goE => attrOf (argsOf goE) key)
      (some a) = .error msg) :
    attrOf (argsOf (buildFixed (go?.map Prod.snd) cgoE)) key =
      ((go?.map Prod.snd).bind fun goE => attrOf (argsOf goE) key) ∧
    (∀ key' a' v', key' ∈ sevenKeys → key' ≠ key →
       attrOf (argsOf cgoE) key' = some a' →
       squashExpr ((go?.map Prod.snd).bind fun goE => attrOf (argsOf goE) key')
           (some a') = .ok (some v') →
       attrOf (argsOf (buildFixed (go?.map Prod.snd) cgoE)) key' = some v') ∧
    (squashCgoLibrary f).stmts =
      match go? with
      | some (gi, _) =>
          (f.stmts.eraseIdx ci).set (if gi > ci then gi - 1 else gi)
            (buildFixed (go?.map Prod.snd) cgoE)
      | none => f.stmts.set ci (buildFixed none cgoE) := by
  rcases go? with _ | ⟨gi, goE⟩
  · have herr2 : squashExpr none (some a) = .error msg := herr
    refine ⟨?_, ?_, ?_⟩
    · show attrOf (argsOf (buildFixed none cgoE)) key = none
      simp only [attrOf_buildFixed_none cgoE key h7, ha, herr2]
    · intro key' a' v' h7' hne' ha' hok'
      have hok2 : squashExpr none (some a') = .ok (some v') := hok'
      show attrOf (argsOf (buildFixed none cgoE)) key' = some v'
      simp only [attrOf_buildFixed_none cgoE key' h7', ha', hok2]
    · show (squashCgoLibrary f).stmts = f.stmts.set ci (buildFixed none cgoE)
      unfold squashCgoLibrary
      rw [hc, hg]
  · have hkeepE : shouldKeep goE = false := hkeep gi goE rfl
    have herr2 : squashExpr (attrOf (argsOf goE) key) (some a) = .error msg := herr
    have hlib : ∀ kk ∈ sevenKeys, kk ≠ "library" ∧ kk ≠ "cgo" := by decide
    have ha2 : ∀ kk, kk ∈ sevenKeys →
        attrOf (setAttrArgs (delAttrArgs (argsOf goE) "library") "cgo" (.lit "True" cNil)) kk =
          attrOf (argsOf goE) kk := fun kk hkk => by
      rw [attrOf_setAttr_ne _ _ _ _ (hlib kk hkk).2, attrOf_delAttr_ne _ _ _ (hlib kk hkk).1]
    refine ⟨?_, ?_, ?_⟩
    · show attrOf (argsOf (buildFixed (some goE) cgoE)) key = attrOf (argsOf goE) key
      rw [buildFixed_some]
      show attrOf (squashAttrs (argsOf cgoE) _) key = _
      unfold squashAttrs
      rw [attrOf_squashFold_mem _ _ _ _ (by decide) h7]
      simp only [ha, ha2 key h7, herr2]
    · intro key' a' v' h7' hne' ha' hok'
      have hok2 : squashExpr (attrOf (argsOf goE) key') (some a') = .ok (some v') := hok'
      show attrOf (argsOf (buildFixed (some goE) cgoE)) key' = some v'
      rw [buildFixed_some]
      show attrOf (squashAttrs (argsOf cgoE) _) key' = _
      unfold squashAttrs
      rw [attrOf_squashFold_mem _ _ _ _ (by decide) h7']
      simp only [ha', ha2 key' h7', hok2]
    · show (squashCgoLibrary f).stmts =
        (f.stmts.eraseIdx ci).set (if gi > ci then gi - 1 else gi)
          (buildFixed (some goE) cgoE)
      unfold squashCgoLibrary
      rw [hc, hg]
      simp [hkeepE]

/-- Witness for C7 at a concrete file exercising the synthesized-target
branch: the file holds only a `cgo_library` whose `copts` has an
unsupported shape; no `go_library` exists, the target is synthesized,
`copts` stays absent from it while `srcs` still merges, and the
`cgo_library` slot is replaced by the synthesized rule. -/
theorem C7_attr_failure_isolated_witness :
    findWithIdx isCgoDefault 0 (⟨[cgoBadCopts]⟩ : File).stmts =
      some (0, cgoBadCopts) ∧
    findWithIdx isGoDefault 0 (⟨[cgoBadCopts]⟩ : File).stmts =
      (none : Option (Nat × Expr)) ∧
    (∀ gi goE, (none : Option (Nat × Expr)) = some (gi, goE) →
      shouldKeep goE = false) ∧
    "copts" ∈ sevenKeys ∧
    attrOf (argsOf cgoBadCopts) "copts" = some (callE "foo" []) ∧
    squashExpr (((none : Option (Nat × Expr)).map Prod.snd).bind
        fun goE => attrOf (argsOf goE) "copts") (some (callE "foo" [])) =
      .error "UnrecognizedShape" ∧
    (attrOf (argsOf (buildFixed ((none : Option (Nat × Expr)).map Prod.snd)
          cgoBadCopts)) "copts" =
        (((none : Option (Nat × Expr)).map Prod.snd).bind
          fun goE => attrOf (argsOf goE) "copts") ∧
      (∀ key' a' v', key' ∈ sevenKeys → key' ≠ "copts" →
         attrOf (argsOf cgoBadCopts) key' = some a' →
         squashExpr (((none : Option (Nat × Expr)).map Prod.snd).bind
             fun goE => attrOf (argsOf goE) key') (some a') = .ok (some v') →
         attrOf (argsOf (buildFixed ((none : Option (Nat × Expr)).map Prod.snd)
           cgoBadCopts)) key' = some v') ∧
      (squashCgoLibrary ⟨[cgoBadCopts]⟩).stmts =
        match (none : Option (Nat × Expr)) with
        | some (gi, _) =>
            ((⟨[cgoBadCopts]⟩ : File).stmts.eraseIdx 0).set
              (if gi > 0 then gi - 1 else gi)
              (buildFixed ((none : Option (Nat × Expr)).map Prod.snd) cgoBadCopts)
        | none => (⟨[cgoBadCopts]⟩ : File).stmts.set 0 (buildFixed none cgoBadCopts)) :=
  ⟨by decide, by decide, fun gi goE h => Option.noConfusion h, by decide, by decide,
   rfl,
   C7_attr_failure_isolated ⟨[cgoBadCopts]⟩ 0 cgoBadCopts (callE "foo" []) none
     "copts" "UnrecognizedShape" (by decide) (by decide)
     (fun gi goE h => Option.noConfusion h) (by decide) (by decide) rfl⟩

/-- C8: a managed load reconciled with nothing added and nothing removed is
returned unchanged, except that a statement whose argument list is only the
file label is fixed to deletion; and a load of a registry file naming only
a known but unused symbol is deleted entirely by `FixLoads`. -/
theorem C8_fixLoad_noop_or_delete :
    (∀ x args fc com F K,
      (addedSyms args K).length = 0 → removedCount args K = 0 →
      fixLoad (some (.call x args fc com)) F K =
        if args.length = 1 then none else some (.call x args fc com)) ∧
    FixLoads ⟨[loadE godefLabel ["cgo_library"]]⟩ = ⟨[]⟩ := by
  constructor
  · intro x args fc com F K hadd hrem
    by_cases hl : args.length = 1 <;> simp [fixLoad, fixLoadCore, hadd, hrem, hl]
  · decide

/-- Witness for C8's reconciliation clause at a concrete unchanged load. -/
theorem C8_fixLoad_noop_or_delete_witness :
    (addedSyms [eStr godefLabel, eStr "go_library"] ["go_library"]).length = 0 ∧
    removedCount [eStr godefLabel, eStr "go_library"] ["go_library"] = 0 ∧
    fixLoad (some (.call (eLit "load") [eStr godefLabel, eStr "go_library"] false cNil))
        godefLabel ["go_library"] =
      (if ([eStr godefLabel, eStr "go_library"] : List Expr).length = 1 then none
       else some (.call (eLit "load") [eStr godefLabel, eStr "go_library"] false cNil)) :=
  ⟨by decide, by decide,
   C8_fixLoad_noop_or_delete.1 (eLit "load") [eStr godefLabel, eStr "go_library"]
     false cNil godefLabel ["go_library"] (by decide) (by decide)⟩

theorem fixedLoadsAux_map_fst (uk : String → List String) (seen : List String)
    (L : List LoadInfo) : (fixedLoadsAux uk seen L).map Prod.fst = L := by
  induction L generalizing seen with
  | nil => rfl
  | cons li rest ih => simp [fixedLoadsAux, ih]

theorem collectLoads_index_ge (i : Nat) (l : List Expr) :
    ∀ li ∈ collectLoads i l, i ≤ li.index := by
  induction l generalizing i with
  | nil => simp [collectLoads]
  | cons s rest ih =>
      intro li hli
      rcases hl : loadFileOf s with _ | v
      · simp only [collectLoads, hl] at hli
        exact Nat.le_of_succ_le (ih (i + 1) li hli)
      · simp only [collectLoads, hl] at hli
        by_cases hk : knownFilesB v
        · rw [if_pos hk] at hli
          rcases List.mem_cons.mp hli with rfl | h
          · exact le_refl _
          · exact Nat.le_of_succ_le (ih (i + 1) li h)
        · rw [if_neg hk] at hli
          exact Nat.le_of_succ_le (ih (i + 1) li hli)

theorem fixedLoadsAux_index_gt (uk : String → List String) (seen : List String)
    (i : Nat) (rest : List Expr) :
    ∀ q ∈ fixedLoadsAux uk seen (collectLoads (i + 1) rest), i < q.1.index := by
  intro q hq
  have h1 : q.1 ∈ (fixedLoadsAux uk seen (collectLoads (i + 1) rest)).map Prod.fst :=
    List.mem_map_of_mem _ hq
  rw [fixedLoadsAux_map_fst] at h1
  exact lt_of_lt_of_le (Nat.lt_succ_self i) (collectLoads_index_ge _ _ _ h1)

theorem replay_cons_skip (i : Nat) (s0 : Expr) (rest : List Expr)
    (fls : List (LoadInfo × Option Expr)) (h : ∀ q ∈ fls, i < q.1.index) :
    replay i (s0 :: rest) fls = s0 :: replay (i + 1) rest fls := by
  cases fls with
  | nil => rfl
  | cons q qs =>
      obtain ⟨li, fx⟩ := q
      have hgt : i < li.index := h (li, fx) (List.mem_cons_self _ _)
      simp only [replay, show ¬(li.index = i) by omega, if_false]

theorem mem_replay_of_unmanaged (uk : String → List String) (stmts : List Expr) :
    ∀ (i : Nat) (seen : List String) (s : Expr), s ∈ stmts → loadFileOf s = none →
      s ∈ replay i stmts (fixedLoadsAux uk seen (collectLoads i stmts)) := by
  induction stmts with
  | nil => intro i seen s hs _; cases hs
  | cons s0 rest ih =>
      intro i seen s hs hnone
      rcases hl : loadFileOf s0 with _ | v
      · simp only [collectLoads, hl]
        rw [replay_cons_skip _ _ _ _ (fixedLoadsAux_index_gt uk seen i rest)]
        rcases List.mem_cons.mp hs with rfl | hmem
        · exact List.mem_cons_self _ _
        · exact List.mem_cons_of_mem _ (ih (i + 1) seen s hmem hnone)
      · simp only [collectLoads, hl]
        by_cases hk : knownFilesB v
        · rw [if_pos hk]
          simp only [fixedLoadsAux]
          have hne : s ≠ s0 := fun he => by rw [he, hl] at hnone; cases hnone
          have hmem : s ∈ rest := by
            rcases List.mem_cons.mp hs with rfl | h
            · exact absurd rfl hne
            · exact h
          cases hfx : fixLoad (some s0) v (if seen.contains v then [] else uk v) with
          | some w =>
              simp only [replay, if_pos rfl, hfx]
              exact List.mem_cons_of_mem _ (ih (i + 1) (v :: seen) s hmem hnone)
          | none =>
              simp only [replay, if_pos rfl, hfx]
              exact ih (i + 1) (v :: seen) s hmem hnone
        · rw [if_neg hk]
          rw [replay_cons_skip _ _ _ _ (fixedLoadsAux_index_gt uk seen i rest)]
          rcases List.mem_cons.mp hs with rfl | hmem
          · exact List.mem_cons_self _ _
          · exact List.mem_cons_of_mem _ (ih (i + 1) seen s hmem hnone)

/-- C9: a top-level `load` call with no arguments or a non-string first
argument is ignored by `FixLoads`: it is never a managed load, it
contributes nothing to the externally-loaded set, and it appears unchanged
in the output. -/
theorem C9_malformed_loads_ignored (f : File) (s : Expr) (cc com : Comments)
    (args : List Expr) (fc : Bool)
    (hs : s = .call (.lit "load" cc) args fc com)
    (hargs : args = [] ∨ ∃ a rest, args = a :: rest ∧ isStrE a = false) :
    loadFileOf s = none ∧ otherSymsOf s = [] ∧
    (s ∈ f.stmts → s ∈ (FixLoads f).stmts) := by
  have hnone : loadFileOf s = none := by
    subst hs
    rcases hargs with rfl | ⟨a, rest, rfl, hna⟩
    · rfl
    · show strVal? a = none
      cases hsv : strVal? a with
      | none => rfl
      | some v =>
          have : isStrE a = true := by simp [isStrE, hsv]
          rw [hna] at this
          cases this
  refine ⟨hnone, ?_, ?_⟩
  · unfold otherSymsOf
    rw [hnone]
  · intro hmem
    show s ∈ (if _ then _ else f).stmts
    split
    · exact List.mem_append_right _
        (mem_replay_of_unmanaged (fun file => usedKindsFor f.stmts file) f.stmts 0 [] s
          hmem hnone)
    · exact hmem

/-- Witness for C9 at a load statement with an empty argument list. -/
theorem C9_malformed_loads_ignored_witness :
    loadFileOf (.call (eLit "load") ([] : List Expr) false cNil) = none ∧
    otherSymsOf (.call (eLit "load") [] false cNil) = [] ∧
    ((Expr.call (eLit "load") [] false cNil) ∈
        (⟨[.call (eLit "load") [] false cNil]⟩ : File).stmts →
      (Expr.call (eLit "load") [] false cNil) ∈
        (FixLoads ⟨[.call (eLit "load") [] false cNil]⟩).stmts) :=
  C9_malformed_loads_ignored ⟨[.call (eLit "load") [] false cNil]⟩ _ cNil cNil [] false
    rfl (Or.inl rfl)

theorem contains_iff_mem_str (l : List String) (s : String) :
    l.contains s = true ↔ s ∈ l := by
  induction l with
  | nil => simp
  | cons a rest ih => simp [List.contains_cons, ih, beq_iff_eq]

theorem strVal?_eq_some (e : Expr) (s : String) (h : strVal? e = some s) :
    ∃ c, e = .str s c := by
  cases e <;> simp [strVal?] at h
  exact ⟨_, by rw [h]⟩

theorem vals_of_nonstr (l : List Expr) (h : ∀ e ∈ l, isStrE e = false) :
    l.filterMap strVal? = [] := by
  induction l with
  | nil => rfl
  | cons a rest ih =>
      have ha : strVal? a = none := by
        have h0 := h a (List.mem_cons_self _ _)
        cases hsv : strVal? a with
        | none => rfl
        | some v => simp [isStrE, hsv] at h0
      rw [List.filterMap_cons, ha]
      exact ih fun e he => h e (List.mem_cons_of_mem _ he)

theorem vals_map_str (K : List String) :
    (K.map fun k => Expr.str k cNil).filterMap strVal? = K := by
  induction K with
  | nil => rfl
  | cons k rest ih => simp [List.filterMap_cons, strVal?, ih]

theorem fixLoad_call_cases (x : Expr) (args : List Expr) (fc : Bool) (com : Comments)
    (F : String) (K : List String) (w : Expr)
    (hw : fixLoad (some (.call x args fc com)) F K = some w) :
    (w = .call x args fc com ∧ (addedSyms args K).length = 0 ∧
      removedCount args K = 0 ∧ args.length ≠ 1) ∨
    (w = .call x
        (args.take 1 ++
          List.insertionSort symLe
            ((args.drop 1).filter (keepSymB K) ++
              (addedSyms args K).map fun k => Expr.str k cNil) ++
          (args.drop 1).filter (fun e => !isStrE e)) fc com ∧
      ¬((addedSyms args K).length = 0 ∧ removedCount args K = 0) ∧
      (args.take 1 ++
          List.insertionSort symLe
            ((args.drop 1).filter (keepSymB K) ++
              (addedSyms args K).map fun k => Expr.str k cNil) ++
          (args.drop 1).filter (fun e => !isStrE e)).length ≠ 1) := by
  simp only [fixLoad, fixLoadCore] at hw
  by_cases hcond : (addedSyms args K).length = 0 ∧ removedCount args K = 0
  · left
    rw [if_pos hcond] at hw
    by_cases hlen : args.length = 1
    · simp [hlen] at hw
    · simp [hlen] at hw
      exact ⟨hw.symm, hcond.1, hcond.2, hlen⟩
  · right
    rw [if_neg hcond] at hw
    by_cases hlen : (args.take 1 ++
        List.insertionSort symLe
          ((args.drop 1).filter (keepSymB K) ++
            (addedSyms args K).map fun k => Expr.str k cNil) ++
        (args.drop 1).filter (fun e => !isStrE e)).length = 1
    · rw [if_pos hlen] at hw
      cases hw
    · rw [if_neg hlen] at hw
      exact ⟨(Option.some.inj hw).symm, hcond, hlen⟩

theorem addedSyms_of_no_syms (args : List Expr) (K : List String)
    (h : (args.drop 1).filter (keepSymB K) = []) : addedSyms args K = K := by
  unfold addedSyms
  rw [h]
  simp

theorem fixLoad_call_none (x : Expr) (args : List Expr) (fc : Bool) (com : Comments)
    (F : String) (K : List String) (hargs : args ≠ [])
    (hw : fixLoad (some (.call x args fc com)) F K = none) : K = [] := by
  simp only [fixLoad, fixLoadCore] at hw
  by_cases hcond : (addedSyms args K).length = 0 ∧ removedCount args K = 0
  · rw [if_pos hcond] at hw
    by_cases hlen : args.length = 1
    · have htail : args.drop 1 = [] := by
        apply List.drop_eq_nil_of_le
        omega
      have hK : addedSyms args K = K := addedSyms_of_no_syms args K (by rw [htail]; rfl)
      rw [hK] at hcond
      exact List.length_eq_zero.mp hcond.1
    · simp [hlen] at hw
  · rw [if_neg hcond] at hw
    by_cases hlen : (args.take 1 ++
        List.insertionSort symLe
          ((args.drop 1).filter (keepSymB K) ++
            (addedSyms args K).map fun k => Expr.str k cNil) ++
        (args.drop 1).filter (fun e => !isStrE e)).length = 1
    · have htake : (args.take 1).length = 1 := by
        cases args with
        | nil => exact absurd rfl hargs
        | cons a rest => simp
      rw [List.length_append, List.length_append, htake,
        (List.perm_insertionSort symLe _).length_eq, List.length_append] at hlen
      have hsym : (args.drop 1).filter (keepSymB K) = [] := by
        have : ((args.drop 1).filter (keepSymB K)).length = 0 := by omega
        exact List.length_eq_zero.mp this
      have hK : addedSyms args K = K := addedSyms_of_no_syms args K hsym
      rw [hK] at hlen
      have : K.length = 0 := by
        rw [List.length_map] at hlen
        omega
      exact List.length_eq_zero.mp this
    · rw [if_neg hlen] at hw
      cases hw

theorem fixLoad_none_none_iff (F : String) (K : List String) :
    fixLoad none F K = none ↔ K = [] := by
  constructor
  · intro hw
    simp only [fixLoad, fixLoadCore] at hw
    by_cases hcond : (addedSyms [Expr.str F cNil] K).length = 0 ∧
        removedCount [Expr.str F cNil] K = 0
    · have hK : addedSyms [Expr.str F cNil] K = K :=
        addedSyms_of_no_syms _ K rfl
      rw [hK] at hcond
      exact List.length_eq_zero.mp hcond.1
    · rw [if_neg hcond] at hw
      by_cases hlen : (([Expr.str F cNil] : List Expr).take 1 ++
          List.insertionSort symLe
            ((([Expr.str F cNil] : List Expr).drop 1).filter (keepSymB K) ++
              (addedSyms [Expr.str F cNil] K).map fun k => Expr.str k cNil) ++
          (([Expr.str F cNil] : List Expr).drop 1).filter (fun e => !isStrE e)).length = 1
      · have hK : addedSyms [Expr.str F cNil] K = K :=
          addedSyms_of_no_syms _ K rfl
        simp only [hK, List.take, List.drop, List.filter, List.length_append,
          (List.perm_insertionSort symLe _).length_eq] at hlen
        simp at hlen
        exact hlen
      · rw [if_neg hlen] at hw
        cases hw
  · intro hK
    subst hK
    rfl

theorem fixLoad_none_some (F : String) (K : List String) (hK : K ≠ []) :
    fixLoad none F K =
      some (.call (.lit "load" cNil)
        (.str F cNil :: List.insertionSort symLe (K.map fun k => Expr.str k cNil))
        true cNil) := by
  simp only [fixLoad, fixLoadCore]
  have hKa : addedSyms [Expr.str F cNil] K = K := addedSyms_of_no_syms _ K rfl
  have hcond : ¬((addedSyms [Expr.str F cNil] K).length = 0 ∧
      removedCount [Expr.str F cNil] K = 0) := by
    rw [hKa]
    intro hc
    exact hK (List.length_eq_zero.mp hc.1)
  rw [if_neg hcond]
  have hlen : (([Expr.str F cNil] : List Expr).take 1 ++
      List.insertionSort symLe
        ((([Expr.str F cNil] : List Expr).drop 1).filter (keepSymB K) ++
          (addedSyms [Expr.str F cNil] K).map fun k => Expr.str k cNil) ++
      (([Expr.str F cNil] : List Expr).drop 1).filter (fun e => !isStrE e)).length ≠ 1 := by
    rw [hKa]
    simp only [List.take, List.drop, List.filter, List.length_append,
      (List.perm_insertionSort symLe _).length_eq]
    simp
    intro hc
    exact hK hc
  rw [if_neg hlen, hKa]
  simp

theorem drop_one_take1_append (args : List Expr) (hargs : args ≠ []) (X : List Expr) :
    (args.take 1 ++ X).drop 1 = X := by
  cases args with
  | nil => exact absurd rfl hargs
  | cons a rest => simp

theorem keepSymB_str_iff (K : List String) (s : String) (c : Comments) :
    keepSymB K (.str s c) = true ↔ ((knownKind? s).isNone = true ∨ s ∈ K) := by
  simp [keepSymB, contains_iff_mem_str]

theorem removed_zero_keep (args : List Expr) (K : List String)
    (hrem : removedCount args K = 0) :
    ∀ e ∈ args.drop 1, isStrE e = true → keepSymB K e = true := by
  intro e he hstr
  unfold removedCount at hrem
  have h0 : ((args.drop 1).filter fun e => isStrE e && !keepSymB K e) = [] :=
    List.length_eq_zero.mp hrem
  have h2 := List.filter_eq_nil_iff.mp h0 e he
  simpa [hstr] using h2

theorem added_zero_loaded (args : List Expr) (K : List String)
    (hadd : (addedSyms args K).length = 0) :
    ∀ k ∈ K, k ∈ ((args.drop 1).filter (keepSymB K)).filterMap strVal? := by
  intro k hk
  have h0 : addedSyms args K = [] := List.length_eq_zero.mp hadd
  unfold addedSyms at h0
  have h2 := List.filter_eq_nil_iff.mp h0 k hk
  simp at h2
  obtain ⟨e, he, hkeep, hev⟩ := h2
  refine List.mem_filterMap.mpr ⟨e, List.mem_filter.mpr ⟨?_, hkeep⟩, hev⟩
  rw [List.drop_one]
  exact he

theorem knownSyms_fixLoad_call (x : Expr) (args : List Expr) (fc : Bool) (com : Comments)
    (F : String) (K : List String) (w : Expr)
    (hargs : args ≠ [])
    (hK : ∀ k ∈ K, (knownKind? k).isSome = true)
    (hw : fixLoad (some (.call x args fc com)) F K = some w) :
    ∀ s, s ∈ knownSymsOfLoad w ↔ s ∈ K := by
  intro s
  rcases fixLoad_call_cases x args fc com F K w hw with ⟨hwe, hadd, hrem, _⟩ | ⟨hwe, _, _⟩
  · subst hwe
    unfold knownSymsOfLoad
    simp only [argsOf]
    constructor
    · intro hs
      obtain ⟨hs1, hs2⟩ := List.mem_filter.mp hs
      obtain ⟨e, he, hev⟩ := List.mem_filterMap.mp hs1
      obtain ⟨c, rfl⟩ := strVal?_eq_some e s hev
      have hkeep := removed_zero_keep args K hrem _ he (by simp [isStrE, strVal?])
      rw [keepSymB_str_iff] at hkeep
      rcases hkeep with hnone | hmem
      · rw [Option.isNone_iff_eq_none] at hnone
        rw [hnone] at hs2
        cases hs2
      · exact hmem
    · intro hsK
      have hld := added_zero_loaded args K hadd s hsK
      apply List.mem_filter.mpr
      refine ⟨?_, hK s hsK⟩
      exact ((List.filter_sublist _).filterMap strVal?).subset hld
  · subst hwe
    unfold knownSymsOfLoad
    simp only [argsOf, List.append_assoc]
    rw [drop_one_take1_append args hargs]
    rw [List.filterMap_append]
    have hoth : ((args.drop 1).filter fun e => !isStrE e).filterMap strVal? = [] := by
      apply vals_of_nonstr
      intro e he
      have h2 := (List.mem_filter.mp he).2
      simpa using h2
    rw [hoth, List.append_nil]
    have hperm := (List.perm_insertionSort symLe
      ((args.drop 1).filter (keepSymB K) ++
        (addedSyms args K).map fun k => Expr.str k cNil)).filterMap strVal?
    constructor
    · intro hs
      obtain ⟨hs1, hs2⟩ := List.mem_filter.mp hs
      rw [hperm.mem_iff, List.filterMap_append] at hs1
      rcases List.mem_append.mp hs1 with hl | hr
      · obtain ⟨e, he, hev⟩ := List.mem_filterMap.mp hl
        obtain ⟨c, rfl⟩ := strVal?_eq_some e s hev
        have hkeep := (List.mem_filter.mp he).2
        rw [keepSymB_str_iff] at hkeep
        rcases hkeep with hnone | hmem
        · rw [Option.isNone_iff_eq_none] at hnone
          rw [hnone] at hs2
          cases hs2
        · exact hmem
      · rw [vals_map_str] at hr
        unfold addedSyms at hr
        exact List.mem_of_mem_filter hr
    · intro hsK
      apply List.mem_filter.mpr
      refine ⟨?_, hK s hsK⟩
      rw [hperm.mem_iff, List.filterMap_append]
      apply List.mem_append.mpr
      by_cases hld : s ∈ ((args.drop 1).filter (keepSymB K)).filterMap strVal?
      · exact Or.inl hld
      · right
        rw [vals_map_str]
        unfold addedSyms
        apply List.mem_filter.mpr
        refine ⟨hsK, ?_⟩
        simp
        intro e he hkeep hev
        exact hld (List.mem_filterMap.mpr ⟨e, List.mem_filter.mpr
          ⟨by rw [List.drop_one]; exact he, hkeep⟩, hev⟩)

theorem loadFileOf_fixLoad (x : Expr) (args : List Expr) (fc : Bool) (com : Comments)
    (F F' : String) (K : List String) (w : Expr)
    (hl : loadFileOf (.call x args fc com) = some F')
    (hw : fixLoad (some (.call x args fc com)) F K = some w) :
    loadFileOf w = some F' := by
  have hargs : args ≠ [] := by
    intro h
    subst h
    cases x <;> simp [loadFileOf] at hl
  rcases fixLoad_call_cases x args fc com F K w hw with ⟨hwe, _⟩ | ⟨hwe, _⟩
  · subst hwe
    exact hl
  · subst hwe
    cases args with
    | nil => exact absurd rfl hargs
    | cons a rest =>
        cases x <;> simp [loadFileOf] at hl ⊢
        case lit tok lc => exact hl

theorem fixLoad_unchanged (x : Expr) (args : List Expr) (fc : Bool) (com : Comments)
    (F : String) (K : List String)
    (hadd : (addedSyms args K).length = 0) (hrem : removedCount args K = 0)
    (hlen : args.length ≠ 1) :
    fixLoad (some (.call x args fc com)) F K = some (.call x args fc com) := by
  simp [fixLoad, fixLoadCore, hadd, hrem, hlen]

theorem removedCount_rewritten (args : List Expr) (K : List String) (hargs : args ≠ []) :
    removedCount (args.take 1 ++
      List.insertionSort symLe
        ((args.drop 1).filter (keepSymB K) ++
          (addedSyms args K).map fun k => Expr.str k cNil) ++
      (args.drop 1).filter (fun e => !isStrE e)) K = 0 := by
  unfold removedCount
  rw [List.append_assoc, drop_one_take1_append args hargs]
  apply List.length_eq_zero.mpr
  apply List.filter_eq_nil_iff.mpr
  intro e he
  rcases List.mem_append.mp he with hsort | hoth
  · have hmem := (List.perm_insertionSort symLe _).mem_iff.mp hsort
    rcases List.mem_append.mp hmem with hsym | haddm
    · have hkeep := (List.mem_filter.mp hsym).2
      simp [hkeep]
    · obtain ⟨k, hkK, rfl⟩ := List.mem_map.mp haddm
      have hkin : k ∈ K := by
        unfold addedSyms at hkK
        exact List.mem_of_mem_filter hkK
      have hkeep : keepSymB K (Expr.str k cNil) = true :=
        (keepSymB_str_iff _ _ _).mpr (Or.inr hkin)
      simp [hkeep]
  · have hnstr := (List.mem_filter.mp hoth).2
    simp at hnstr
    simp [hnstr]

theorem addedSyms_eq (args : List Expr) (K : List String) :
    addedSyms args K =
      K.filter (fun k =>
        !(((args.drop 1).filter (keepSymB K)).filterMap strVal?).contains k) := rfl

theorem addedSyms_rewritten (args : List Expr) (K : List String) (hargs : args ≠ []) :
    addedSyms (args.take 1 ++
      List.insertionSort symLe
        ((args.drop 1).filter (keepSymB K) ++
          (addedSyms args K).map fun k => Expr.str k cNil) ++
      (args.drop 1).filter (fun e => !isStrE e)) K = [] := by
  rw [addedSyms_eq]
  rw [List.append_assoc, drop_one_take1_append args hargs]
  apply List.filter_eq_nil_iff.mpr
  intro k hk
  have hmem : k ∈ ((List.insertionSort symLe
      ((args.drop 1).filter (keepSymB K) ++
        (addedSyms args K).map fun kk => Expr.str kk cNil) ++
      (args.drop 1).filter (fun e => !isStrE e)).filter (keepSymB K)).filterMap strVal? := by
    by_cases hld : k ∈ ((args.drop 1).filter (keepSymB K)).filterMap strVal?
    · obtain ⟨e, he, hev⟩ := List.mem_filterMap.mp hld
      have hkeep := (List.mem_filter.mp he).2
      refine List.mem_filterMap.mpr ⟨e, List.mem_filter.mpr ⟨?_, hkeep⟩, hev⟩
      exact List.mem_append_left _
        ((List.perm_insertionSort symLe _).mem_iff.mpr (List.mem_append_left _ he))
    · have hkadd : k ∈ addedSyms args K := by
        rw [addedSyms_eq]
        apply List.mem_filter.mpr
        refine ⟨hk, ?_⟩
        simp
        intro e he hkeep hev
        exact hld (List.mem_filterMap.mpr ⟨e, List.mem_filter.mpr
          ⟨by rw [List.drop_one]; exact he, hkeep⟩, hev⟩)
      refine List.mem_filterMap.mpr ⟨Expr.str k cNil, List.mem_filter.mpr ⟨?_, ?_⟩, rfl⟩
      · exact List.mem_append_left _
          ((List.perm_insertionSort symLe _).mem_iff.mpr
            (List.mem_append_right _ (List.mem_map_of_mem _ hkadd)))
      · exact (keepSymB_str_iff _ _ _).mpr (Or.inr hk)
  have hcont := (contains_iff_mem_str _ _).mpr hmem
  rw [hcont]
  decide

theorem removedCount_synth (F : String) (K : List String) :
    removedCount (.str F cNil ::
      List.insertionSort symLe (K.map fun k => Expr.str k cNil)) K = 0 := by
  unfold removedCount
  apply List.length_eq_zero.mpr
  apply List.filter_eq_nil_iff.mpr
  intro e he
  simp only [List.drop_one, List.tail_cons] at he
  have hmem := (List.perm_insertionSort symLe _).mem_iff.mp he
  obtain ⟨k, hkK, rfl⟩ := List.mem_map.mp hmem
  have hkeep : keepSymB K (Expr.str k cNil) = true :=
    (keepSymB_str_iff _ _ _).mpr (Or.inr hkK)
  simp [hkeep]

theorem addedSyms_synth (F : String) (K : List String) :
    addedSyms (.str F cNil ::
      List.insertionSort symLe (K.map fun k => Expr.str k cNil)) K = [] := by
  unfold addedSyms
  apply List.filter_eq_nil_iff.mpr
  intro k hk
  have hmem : k ∈ (((.str F cNil ::
      List.insertionSort symLe (K.map fun kk => Expr.str kk cNil) : List Expr).drop 1).filter
        (keepSymB K)).filterMap strVal? := by
    refine List.mem_filterMap.mpr ⟨Expr.str k cNil, List.mem_filter.mpr ⟨?_, ?_⟩, rfl⟩
    · simp only [List.drop_one, List.tail_cons]
      exact (List.perm_insertionSort symLe _).mem_iff.mpr (List.mem_map_of_mem _ hk)
    · exact (keepSymB_str_iff _ _ _).mpr (Or.inr hk)
  have hcont := (contains_iff_mem_str _ _).mpr hmem
  rw [hcont]
  decide

theorem fixLoad_idem (o : Option Expr) (F : String) (K : List String) (w : Expr)
    (ho : ∀ x args fc com, o = some (.call x args fc com) → args ≠ [])
    (hw : fixLoad o F K = some w) :
    fixLoad (some w) F K = some w := by
  cases o with
  | none =>
      by_cases hK : K = []
      · rw [hK, (fixLoad_none_none_iff F []).mpr rfl] at hw
        cases hw
      · rw [fixLoad_none_some F K hK] at hw
        have hww := Option.some.inj hw
        subst hww
        apply fixLoad_unchanged
        · rw [addedSyms_synth]
          rfl
        · exact removedCount_synth F K
        · simp [(List.perm_insertionSort symLe _).length_eq]
          intro hc
          exact hK hc
  | some e =>
      cases e with
      | call x args fc com =>
          have hargs := ho x args fc com rfl
          rcases fixLoad_call_cases x args fc com F K w hw with ⟨hwe, _, _, _⟩ | ⟨hwe, _, hlen⟩
          · subst hwe
            exact hw
          · subst hwe
            apply fixLoad_unchanged
            · rw [addedSyms_rewritten args K hargs]
              rfl
            · exact removedCount_rewritten args K hargs
            · exact hlen
      | lit t c =>
          simp [fixLoad] at hw
          subst hw
          simp [fixLoad]
      | str v c =>
          simp [fixLoad] at hw
          subst hw
          simp [fixLoad]
      | list es c =>
          simp [fixLoad] at hw
          subst hw
          simp [fixLoad]
      | dict es c =>
          simp [fixLoad] at hw
          subst hw
          simp [fixLoad]
      | keyValue a b c =>
          simp [fixLoad] at hw
          subst hw
          simp [fixLoad]
      | binary a op b c =>
          simp [fixLoad] at hw
          subst hw
          simp [fixLoad]

theorem replay_id (uk : String → List String) (stmts : List Expr) :
    ∀ (i : Nat) (seen : List String),
      (∀ q ∈ fixedLoadsAux uk seen (collectLoads i stmts), q.2 = some q.1.old) →
      replay i stmts (fixedLoadsAux uk seen (collectLoads i stmts)) = stmts := by
  induction stmts with
  | nil => intro i seen _; rfl
  | cons s0 rest ih =>
      intro i seen hall
      rcases hl : loadFileOf s0 with _ | v
      · simp only [collectLoads, hl] at hall ⊢
        rw [replay_cons_skip _ _ _ _ (fixedLoadsAux_index_gt uk seen i rest),
          ih (i + 1) seen hall]
      · simp only [collectLoads, hl] at hall ⊢
        by_cases hk : knownFilesB v
        · rw [if_pos hk] at hall ⊢
          simp only [fixedLoadsAux] at hall ⊢
          have hfix := hall _ (List.mem_cons_self _ _)
          dsimp only at hfix
          simp only [replay, if_pos rfl]
          rw [hfix]
          rw [ih (i + 1) (v :: seen) fun q hq => hall q (List.mem_cons_of_mem _ hq)]
          simp
        · rw [if_neg hk] at hall ⊢
          rw [replay_cons_skip _ _ _ _ (fixedLoadsAux_index_gt uk seen i rest),
            ih (i + 1) seen hall]

theorem FixLoads_stmts_decomp (f : File) :
    (FixLoads f).stmts = newLoadsOf f ++ replayOf f := by
  simp only [FixLoads, newLoadsOf, replayOf, flsOf, loadsOf, ukOf]
  split
  · rfl
  · next hcond =>
      simp only [Bool.or_eq_true, not_or, Bool.not_eq_true, Bool.not_eq_false] at hcond
      obtain ⟨h1, h2⟩ := hcond
      have hnil : newFirstLoads (collectLoads 0 f.stmts)
          (fun file => usedKindsFor f.stmts file) = [] :=
        List.isEmpty_iff.mp (by simpa using h1)
      have hall : ∀ q ∈ fixedLoadsAux (fun file => usedKindsFor f.stmts file) []
          (collectLoads 0 f.stmts), q.2 = some q.1.old := by
        intro q hq
        have h3 := List.any_eq_false.mp h2 q hq
        simpa using h3
      show f.stmts = newFirstLoads (collectLoads 0 f.stmts)
          (fun file => usedKindsFor f.stmts file) ++
        replay 0 f.stmts (fixedLoadsAux (fun file => usedKindsFor f.stmts file) []
          (collectLoads 0 f.stmts))
      rw [hnil, replay_id _ _ 0 [] hall, List.nil_append]

theorem loadFileOf_fixLoad_none (F : String) (K : List String) (w : Expr)
    (hw : fixLoad none F K = some w) : loadFileOf w = some F := by
  by_cases hK : K = []
  · rw [hK, (fixLoad_none_none_iff F []).mpr rfl] at hw
    cases hw
  · rw [fixLoad_none_some F K hK] at hw
    have h := Option.some.inj hw
    subst h
    simp [loadFileOf, strVal?]

theorem newFirstLoads_files_sublist_aux (loads : List LoadInfo) (uk : String → List String)
    (L : List (String × List String)) :
    ((L.filterMap fun l =>
        if loads.any fun li => li.file = l.1 then none
        else fixLoad none l.1 (uk l.1)).map loadFileOf).Sublist
      (L.map fun l => some l.1) := by
  induction L with
  | nil => exact List.Sublist.refl _
  | cons l rest ih =>
      rw [List.filterMap_cons, List.map_cons]
      by_cases hany : loads.any fun li => li.file = l.1
      · rw [if_pos hany]
        exact ih.cons _
      · rw [if_neg hany]
        cases hfl : fixLoad none l.1 (uk l.1) with
        | none => exact ih.cons _
        | some w =>
            rw [List.map_cons, loadFileOf_fixLoad_none _ _ _ hfl]
            exact ih.cons₂ _

theorem mem_newFirstLoads (loads : List LoadInfo) (uk : String → List String) (w : Expr)
    (hw : w ∈ newFirstLoads loads uk) :
    ∃ l ∈ knownLoads, fixLoad none l.1 (uk l.1) = some w ∧
      ∀ li ∈ loads, li.file ≠ l.1 := by
  unfold newFirstLoads at hw
  obtain ⟨l, hl, hfl⟩ := List.mem_filterMap.mp hw
  by_cases hany : loads.any fun li => li.file = l.1
  · rw [if_pos hany] at hfl
    cases hfl
  · rw [if_neg hany] at hfl
    refine ⟨l, hl, hfl, ?_⟩
    simpa using hany

theorem isStrE_of_keep (K : List String) (e : Expr) (h : keepSymB K e = true) :
    isStrE e = true := by
  cases e <;> first
    | (simp [isStrE, strVal?]; done)
    | simp [keepSymB] at h

theorem managedSortedArgs_changed (x : Expr) (args : List Expr) (fc : Bool)
    (com : Comments) (F : String) (K : List String) (w : Expr) (hargs : args ≠ [])
    (hw : fixLoad (some (.call x args fc com)) F K = some w)
    (hne : w ≠ .call x args fc com) :
    managedSortedArgs w := by
  rcases fixLoad_call_cases x args fc com F K w hw with ⟨hwe, _⟩ | ⟨hwe, _, _⟩
  · exact absurd hwe hne
  · subst hwe
    unfold managedSortedArgs
    simp only [argsOf]
    refine ⟨List.insertionSort symLe
        ((args.drop 1).filter (keepSymB K) ++
          (addedSyms args K).map fun k => Expr.str k cNil),
      (args.drop 1).filter (fun e => !isStrE e), ?_, ?_, ?_, ?_⟩
    · rw [List.append_assoc, drop_one_take1_append args hargs]
    · intro a ha
      have hmem := (List.perm_insertionSort symLe _).mem_iff.mp ha
      rcases List.mem_append.mp hmem with h1 | h2
      · exact isStrE_of_keep K a (List.mem_filter.mp h1).2
      · obtain ⟨k, _, rfl⟩ := List.mem_map.mp h2
        simp [isStrE, strVal?]
    · intro a ha
      have h2 := (List.mem_filter.mp ha).2
      simpa using h2
    · exact List.sorted_insertionSort symLe _

theorem managedSortedArgs_synth (F : String) (K : List String) (w : Expr)
    (hw : fixLoad none F K = some w) : managedSortedArgs w := by
  by_cases hK : K = []
  · rw [hK, (fixLoad_none_none_iff F []).mpr rfl] at hw
    cases hw
  · rw [fixLoad_none_some F K hK] at hw
    have h := Option.some.inj hw
    subst h
    unfold managedSortedArgs
    simp only [argsOf, List.drop_one, List.tail_cons]
    refine ⟨List.insertionSort symLe (K.map fun k => Expr.str k cNil), [], ?_, ?_, ?_, ?_⟩
    · rw [List.append_nil]
    · intro a ha
      have hmem := (List.perm_insertionSort symLe _).mem_iff.mp ha
      obtain ⟨k, _, rfl⟩ := List.mem_map.mp hmem
      simp [isStrE, strVal?]
    · intro a ha
      cases ha
    · exact List.sorted_insertionSort symLe _

/-- C6: the load statements `FixLoads` synthesizes are placed before all
replayed original statements, with their registry files a subsequence of
the registry table's order; every synthesized load and every load actually
rewritten by `fixLoad` has its string symbols (managed ones included)
sorted lexicographically and placed before the preserved non-string
arguments. -/
theorem C6_ordering (f : File) :
    (FixLoads f).stmts = newLoadsOf f ++ replayOf f ∧
    ((newLoadsOf f).map loadFileOf).Sublist (knownLoads.map fun l => some l.1) ∧
    (∀ w ∈ newLoadsOf f, managedSortedArgs w) ∧
    (∀ x args fc com F K w, args ≠ [] →
      fixLoad (some (.call x args fc com)) F K = some w → w ≠ .call x args fc com →
      managedSortedArgs w) := by
  refine ⟨FixLoads_stmts_decomp f, ?_, ?_, ?_⟩
  · exact newFirstLoads_files_sublist_aux _ _ knownLoads
  · intro w hw
    obtain ⟨l, _, hfl, _⟩ := mem_newFirstLoads _ _ w hw
    exact managedSortedArgs_synth l.1 _ w hfl
  · intro x args fc com F K w hargs hw hne
    exact managedSortedArgs_changed x args fc com F K w hargs hw hne

/-- Witness for C6 at a concrete file and a concrete rewritten load. -/
theorem C6_ordering_witness :
    (FixLoads ⟨[callE "go_library" []]⟩).stmts =
      newLoadsOf ⟨[callE "go_library" []]⟩ ++ replayOf ⟨[callE "go_library" []]⟩ ∧
    ([eStr godefLabel, eStr "cgo_library"] : List Expr) ≠ [] ∧
    fixLoad (some (.call (eLit "load") [eStr godefLabel, eStr "cgo_library"] false cNil))
        godefLabel ["go_library"] =
      some (.call (eLit "load") [eStr godefLabel, eStr "go_library"] false cNil) ∧
    ((.call (eLit "load") [eStr godefLabel, eStr "go_library"] false cNil : Expr) ≠
      .call (eLit "load") [eStr godefLabel, eStr "cgo_library"] false cNil) ∧
    managedSortedArgs
      (.call (eLit "load") [eStr godefLabel, eStr "go_library"] false cNil) :=
  ⟨(C6_ordering ⟨[callE "go_library" []]⟩).1, by decide, by decide, by decide,
   (C6_ordering ⟨[callE "go_library" []]⟩).2.2.2 (eLit "load")
     [eStr godefLabel, eStr "cgo_library"] false cNil godefLabel ["go_library"]
     (.call (eLit "load") [eStr godefLabel, eStr "go_library"] false cNil)
     (by decide) (by decide) (by decide)⟩

theorem loadFileOf_inv (e : Expr) (v : String) (h : loadFileOf e = some v) :
    ∃ lc first rest fc com, e = .call (.lit "load" lc) (first :: rest) fc com ∧
      strVal? first = some v := by
  cases e with
  | call x args fc com =>
      cases x with
      | lit tok lc =>
          cases args with
          | nil => simp [loadFileOf] at h
          | cons a rest =>
              by_cases ht : tok = "load"
              · subst ht
                exact ⟨lc, a, rest, fc, com, rfl, by simpa [loadFileOf] using h⟩
              · simp [loadFileOf, ht] at h
      | str a b => simp [loadFileOf] at h
      | list a b => simp [loadFileOf] at h
      | dict a b => simp [loadFileOf] at h
      | keyValue a b c => simp [loadFileOf] at h
      | binary a o b c => simp [loadFileOf] at h
      | call a b c d => simp [loadFileOf] at h
  | lit t c => simp [loadFileOf] at h
  | str t c => simp [loadFileOf] at h
  | list t c => simp [loadFileOf] at h
  | dict t c => simp [loadFileOf] at h
  | keyValue a b c => simp [loadFileOf] at h
  | binary a o b c => simp [loadFileOf] at h

theorem loadSeq_cons_load (s : Expr) (l : List Expr) (v : String)
    (h : loadFileOf s = some v) (hk : knownFilesB v = true) :
    loadSeq (s :: l) = (v, s) :: loadSeq l := by
  simp [loadSeq, List.filterMap_cons, h, hk]

theorem loadSeq_cons_none (s : Expr) (l : List Expr) (h : loadFileOf s = none) :
    loadSeq (s :: l) = loadSeq l := by
  simp [loadSeq, List.filterMap_cons, h]

theorem loadSeq_cons_unknown (s : Expr) (l : List Expr) (v : String)
    (h : loadFileOf s = some v) (hk : knownFilesB v = false) :
    loadSeq (s :: l) = loadSeq l := by
  simp [loadSeq, List.filterMap_cons, h, hk]

theorem keptOf_cons_some (F : String) (o : Expr) (w : Expr)
    (l : List ((String × Expr) × Option Expr)) :
    keptOf (((F, o), some w) :: l) = (F, w) :: keptOf l := by
  simp [keptOf]

theorem keptOf_cons_none (F : String) (o : Expr)
    (l : List ((String × Expr) × Option Expr)) :
    keptOf (((F, o), none) :: l) = keptOf l := by
  simp [keptOf]

theorem replay_cons_hit_some (i : Nat) (s : Expr) (rest : List Expr) (li : LoadInfo)
    (w : Expr) (qs : List (LoadInfo × Option Expr)) (h : li.index = i) :
    replay i (s :: rest) ((li, some w) :: qs) = w :: replay (i + 1) rest qs := by
  simp [replay, h]

theorem replay_cons_hit_none (i : Nat) (s : Expr) (rest : List Expr) (li : LoadInfo)
    (qs : List (LoadInfo × Option Expr)) (h : li.index = i) :
    replay i (s :: rest) ((li, none) :: qs) = replay (i + 1) rest qs := by
  simp [replay, h]

theorem mem_loadSeq (stmts : List Expr) (v : String) (e : Expr) :
    (v, e) ∈ loadSeq stmts ↔
      e ∈ stmts ∧ loadFileOf e = some v ∧ knownFilesB v = true := by
  constructor
  · intro h
    obtain ⟨s, hs, hmatch⟩ := List.mem_filterMap.mp h
    rcases hls : loadFileOf s with _ | u
    · rw [hls] at hmatch
      cases hmatch
    · rw [hls] at hmatch
      have hmatch' : (if knownFilesB u then some (u, s) else none) = some (v, e) := hmatch
      by_cases hk : knownFilesB u = true
      · rw [if_pos hk] at hmatch'
        injection hmatch' with h12
        injection h12 with h1 h2
        subst h1
        subst h2
        exact ⟨hs, hls, hk⟩
      · rw [if_neg hk] at hmatch'
        cases hmatch'
  · rintro ⟨he, hl, hk⟩
    refine List.mem_filterMap.mpr ⟨e, he, ?_⟩
    simp [hl, hk]

theorem collectLoads_pairs (stmts : List Expr) :
    ∀ i : Nat, ((collectLoads i stmts).map fun li => (li.file, li.old)) = loadSeq stmts := by
  induction stmts with
  | nil => intro i; rfl
  | cons s0 rest ih =>
      intro i
      rcases hl : loadFileOf s0 with _ | v
      · rw [loadSeq_cons_none s0 rest hl, ← ih (i + 1)]
        simp [collectLoads, hl]
      · by_cases hk : knownFilesB v = true
        · rw [loadSeq_cons_load s0 rest v hl hk, ← ih (i + 1)]
          simp [collectLoads, hl, hk]
        · rw [loadSeq_cons_unknown s0 rest v hl (Bool.eq_false_iff.mpr hk), ← ih (i + 1)]
          simp [collectLoads, hl, hk]

theorem fixedSeq_proj (uk : String → List String) (L : List LoadInfo) :
    ∀ seen, (fixedLoadsAux uk seen L).map (fun q => ((q.1.file, q.1.old), q.2)) =
      fixedSeq uk seen (L.map fun li => (li.file, li.old)) := by
  induction L with
  | nil => intro seen; rfl
  | cons li rest ih =>
      intro seen
      simp only [fixedLoadsAux, fixedSeq, List.map_cons]
      rw [ih (li.file :: seen)]

theorem fixedSeq_append (uk : String → List String) (A : List (String × Expr)) :
    ∀ (B : List (String × Expr)) (seen : List String),
      fixedSeq uk seen (A ++ B) =
        fixedSeq uk seen A ++ fixedSeq uk (A.foldl (fun s pr => pr.1 :: s) seen) B := by
  induction A with
  | nil => intro B seen; rfl
  | cons pr rest ih =>
      intro B seen
      obtain ⟨F, o⟩ := pr
      simp only [List.cons_append, fixedSeq, List.foldl_cons, List.append_eq]
      rw [ih B (F :: seen)]

theorem mem_keptOf (l : List ((String × Expr) × Option Expr)) (F : String) (w : Expr) :
    (F, w) ∈ keptOf l ↔ ∃ q ∈ l, q.1.1 = F ∧ q.2 = some w := by
  constructor
  · intro h
    obtain ⟨q, hq, hmap⟩ := List.mem_filterMap.mp h
    rcases hq2 : q.2 with _ | w'
    · rw [hq2] at hmap
      cases hmap
    · rw [hq2] at hmap
      injection hmap with h12
      injection h12 with h1 h2
      exact ⟨q, hq, h1, by rw [hq2, h2]⟩
  · rintro ⟨q, hq, h1, h2⟩
    exact List.mem_filterMap.mpr ⟨q, hq, by rw [h2, Option.map_some', h1]⟩

theorem loadSeq_replay (uk : String → List String) (stmts : List Expr) :
    ∀ (i : Nat) (seen : List String),
      loadSeq (replay i stmts (fixedLoadsAux uk seen (collectLoads i stmts))) =
        keptOf (fixedSeq uk seen (loadSeq stmts)) := by
  induction stmts with
  | nil => intro i seen; rfl
  | cons s0 rest ih =>
      intro i seen
      rcases hl : loadFileOf s0 with _ | v
      · simp only [collectLoads, hl]
        rw [replay_cons_skip _ _ _ _ (fixedLoadsAux_index_gt uk seen i rest),
          loadSeq_cons_none s0 _ hl, loadSeq_cons_none s0 rest hl]
        exact ih (i + 1) seen
      · by_cases hk : knownFilesB v = true
        · obtain ⟨x, args, fc, com, hs0, hargs⟩ : ∃ x args fc com,
              s0 = Expr.call x args fc com ∧ args ≠ [] := by
            obtain ⟨lc, first, rst, fc, com, heq, _⟩ := loadFileOf_inv s0 v hl
            exact ⟨_, _, _, _, heq, List.cons_ne_nil _ _⟩
          subst hs0
          simp only [collectLoads, hl, if_pos hk, fixedLoadsAux]
          rw [loadSeq_cons_load _ rest v hl hk]
          cases hfx : fixLoad (some (Expr.call x args fc com)) v
              (if seen.contains v then [] else uk v) with
          | some w =>
              rw [replay_cons_hit_some i (Expr.call x args fc com) rest
                ⟨i, v, Expr.call x args fc com⟩ w
                (fixedLoadsAux uk (v :: seen) (collectLoads (i + 1) rest)) rfl]
              have hwl : loadFileOf w = some v :=
                loadFileOf_fixLoad x args fc com v v _ w hl hfx
              rw [loadSeq_cons_load w _ v hwl hk]
              rw [show fixedSeq uk seen ((v, Expr.call x args fc com) :: loadSeq rest) =
                  ((v, Expr.call x args fc com), fixLoad (some (Expr.call x args fc com)) v
                    (if seen.contains v then [] else uk v)) ::
                    fixedSeq uk (v :: seen) (loadSeq rest) from rfl,
                hfx, keptOf_cons_some, ih (i + 1) (v :: seen)]
          | none =>
              rw [replay_cons_hit_none i (Expr.call x args fc com) rest
                ⟨i, v, Expr.call x args fc com⟩
                (fixedLoadsAux uk (v :: seen) (collectLoads (i + 1) rest)) rfl]
              rw [show fixedSeq uk seen ((v, Expr.call x args fc com) :: loadSeq rest) =
                  ((v, Expr.call x args fc com), fixLoad (some (Expr.call x args fc com)) v
                    (if seen.contains v then [] else uk v)) ::
                    fixedSeq uk (v :: seen) (loadSeq rest) from rfl,
                hfx, keptOf_cons_none]
              exact ih (i + 1) (v :: seen)
        · simp only [collectLoads, hl, if_neg hk]
          rw [replay_cons_skip _ _ _ _ (fixedLoadsAux_index_gt uk seen i rest),
            loadSeq_cons_unknown s0 _ v hl (Bool.eq_false_iff.mpr hk),
            loadSeq_cons_unknown s0 rest v hl (Bool.eq_false_iff.mpr hk)]
          exact ih (i + 1) seen

theorem loadSeq_nfl_aux (loads : List LoadInfo) (uk : String → List String)
    (L : List (String × List String)) (hL : ∀ l ∈ L, knownFilesB l.1 = true) :
    loadSeq (L.filterMap fun l =>
        if loads.any fun li => li.file = l.1 then none
        else fixLoad none l.1 (uk l.1)) =
      L.filterMap fun l =>
        if loads.any fun li => li.file = l.1 then none
        else (fixLoad none l.1 (uk l.1)).map fun w => (l.1, w) := by
  induction L with
  | nil => rfl
  | cons l rest ih =>
      have hlk := hL l (List.mem_cons_self _ _)
      have ihr := ih fun l' hl' => hL l' (List.mem_cons_of_mem _ hl')
      simp only [loadSeq, List.any_eq_true, decide_eq_true_eq] at ihr ⊢
      by_cases hany : ∃ x ∈ loads, x.file = l.1
      · simp [List.filterMap_cons, hany, ihr]
      · cases hfl : fixLoad none l.1 (uk l.1) with
        | none => simp [List.filterMap_cons, hany, hfl, ihr]
        | some w =>
            have hwl : loadFileOf w = some l.1 := loadFileOf_fixLoad_none _ _ _ hfl
            simp [List.filterMap_cons, hany, hfl, hwl, hlk, ihr]

theorem usedKindPairs_eq (stmts : List Expr) (other : List String) :
    usedKindPairs stmts other = stmts.filterMap (usedKindOf other) := rfl

theorem usedKindPairs_append (a b : List Expr) (other : List String) :
    usedKindPairs (a ++ b) other = usedKindPairs a other ++ usedKindPairs b other := by
  simp only [usedKindPairs_eq, List.filterMap_append]

theorem usedKindPairs_cons_of_none (s : Expr) (l : List Expr) (other : List String)
    (h : usedKindOf other s = none) :
    usedKindPairs (s :: l) other = usedKindPairs l other := by
  simp only [usedKindPairs_eq, List.filterMap_cons, h]

theorem usedKindPairs_cons_of_some (s : Expr) (l : List Expr) (other : List String)
    (p : String × String) (h : usedKindOf other s = some p) :
    usedKindPairs (s :: l) other = p :: usedKindPairs l other := by
  simp only [usedKindPairs_eq, List.filterMap_cons, h]

theorem knownKind_load : knownKind? "load" = none := by decide

theorem usedKindOf_load (other : List String) (s : Expr) (v : String)
    (hl : loadFileOf s = some v) : usedKindOf other s = none := by
  obtain ⟨lc, first, rst, fc, com, rfl, _⟩ := loadFileOf_inv s v hl
  simp [usedKindOf, callKindOf, knownKind_load]

theorem knownLoads_files_known : ∀ l ∈ knownLoads, knownFilesB l.1 = true := by decide

theorem mem_dedupFirst_aux (l : List String) :
    ∀ (acc : List String) (s : String),
      (s ∈ l.foldl (fun acc k => if acc.contains k then acc else acc ++ [k]) acc) ↔
        s ∈ acc ∨ s ∈ l := by
  induction l with
  | nil => intro acc s; simp
  | cons k rest ih =>
      intro acc s
      rw [List.foldl_cons, ih]
      by_cases hc : acc.contains k = true
      · rw [if_pos hc]
        have hk : k ∈ acc := (contains_iff_mem_str acc k).mp hc
        constructor
        · exact fun h => h.imp id (List.mem_cons_of_mem _)
        · rintro (h | h)
          · exact Or.inl h
          · rcases List.mem_cons.mp h with h1 | h1
            · exact Or.inl (h1 ▸ hk)
            · exact Or.inr h1
      · rw [if_neg hc]
        constructor
        · rintro (h | h)
          · rcases List.mem_append.mp h with h1 | h1
            · exact Or.inl h1
            · exact Or.inr (List.mem_cons.mpr (Or.inl (List.mem_singleton.mp h1)))
          · exact Or.inr (List.mem_cons_of_mem _ h)
        · rintro (h | h)
          · exact Or.inl (List.mem_append.mpr (Or.inl h))
          · rcases List.mem_cons.mp h with h1 | h1
            · exact Or.inl (List.mem_append.mpr (Or.inr (by simp [h1])))
            · exact Or.inr h1

theorem mem_dedupFirst (l : List String) (s : String) : s ∈ dedupFirst l ↔ s ∈ l := by
  rw [dedupFirst, mem_dedupFirst_aux]
  simp

theorem usedKindsFor_known (stmts : List Expr) (F s : String)
    (hs : s ∈ usedKindsFor stmts F) : knownKind? s = some F := by
  rw [usedKindsFor, mem_dedupFirst] at hs
  obtain ⟨p, hp, hpe⟩ := List.mem_filterMap.mp hs
  by_cases hpf : p.1 = F
  · rw [if_pos hpf] at hpe
    have hps : p.2 = s := Option.some.inj hpe
    rw [usedKindPairs_eq] at hp
    obtain ⟨e, _, hg⟩ := List.mem_filterMap.mp hp
    rcases hck : callKindOf e with _ | kind
    · rw [usedKindOf, hck] at hg
      cases hg
    · rw [usedKindOf, hck] at hg
      have hg' : (match knownKind? kind with
          | some file =>
              if (otherLoadedKinds stmts).contains kind then none else some (file, kind)
          | none => none) = some p := hg
      rcases hkk : knownKind? kind with _ | file
      · rw [hkk] at hg'
        cases hg'
      · rw [hkk] at hg'
        have hg'' : (if (otherLoadedKinds stmts).contains kind then none
            else some (file, kind)) = some p := hg'
        by_cases hcon : (otherLoadedKinds stmts).contains kind = true
        · rw [if_pos hcon] at hg''
          cases hg''
        · rw [if_neg hcon] at hg''
          have hpv := Option.some.inj hg''
          subst hpv
          have hks : kind = s := hps
          have hfF : file = F := hpf
          rw [← hks, ← hfF]
          exact hkk
  · rw [if_neg hpf] at hpe
    cases hpe

theorem knownSyms_fixLoad_none (F : String) (K : List String) (w : Expr)
    (hK : ∀ k ∈ K, (knownKind? k).isSome = true)
    (hw : fixLoad none F K = some w) :
    ∀ s, s ∈ knownSymsOfLoad w ↔ s ∈ K := by
  intro s
  by_cases hKe : K = []
  · rw [hKe, (fixLoad_none_none_iff F []).mpr rfl] at hw
    cases hw
  · rw [fixLoad_none_some F K hKe] at hw
    obtain rfl := Option.some.inj hw
    simp only [knownSymsOfLoad, argsOf]
    rw [List.drop_one, List.tail_cons]
    have hperm : ((List.insertionSort symLe
        (K.map fun k => Expr.str k cNil)).filterMap strVal?).Perm K := by
      have h1 := (List.perm_insertionSort symLe
        (K.map fun k => Expr.str k cNil)).filterMap strVal?
      rw [vals_map_str] at h1
      exact h1
    rw [List.mem_filter]
    constructor
    · rintro ⟨h1, _⟩
      exact hperm.mem_iff.mp h1
    · intro hsK
      exact ⟨hperm.mem_iff.mpr hsK, hK s hsK⟩

theorem mem_loadedKnownSyms (stmts : List Expr) (F s : String) :
    s ∈ loadedKnownSyms stmts F ↔
      ∃ e ∈ stmts, loadFileOf e = some F ∧ s ∈ knownSymsOfLoad e := by
  simp only [loadedKnownSyms, List.mem_flatten, List.mem_map, List.mem_filter]
  constructor
  · rintro ⟨l, ⟨e, ⟨he, hf⟩, rfl⟩, hs⟩
    exact ⟨e, he, by simpa using hf, hs⟩
  · rintro ⟨e, he, hf, hs⟩
    exact ⟨knownSymsOfLoad e, ⟨e, ⟨he, by simpa using hf⟩, rfl⟩, hs⟩

theorem otherSymsOf_managed (e : Expr) (v : String) (hl : loadFileOf e = some v)
    (hk : knownFilesB v = true) : otherSymsOf e = [] := by
  simp [otherSymsOf, hl, hk]

theorem flatten_map_nil {α β : Type} (h : α → List β) (l : List α)
    (hl : ∀ x ∈ l, h x = []) : (l.map h).flatten = [] := by
  induction l with
  | nil => rfl
  | cons a rest ih =>
      simp [hl a (List.mem_cons_self _ _), ih fun x hx => hl x (List.mem_cons_of_mem _ hx)]

theorem otherLoadedKinds_cons (s : Expr) (l : List Expr) :
    otherLoadedKinds (s :: l) = otherSymsOf s ++ otherLoadedKinds l := by
  simp [otherLoadedKinds]

theorem otherLoadedKinds_append (a b : List Expr) :
    otherLoadedKinds (a ++ b) = otherLoadedKinds a ++ otherLoadedKinds b := by
  simp [otherLoadedKinds]

theorem otherLoaded_replay (uk : String → List String) (stmts : List Expr) :
    ∀ (i : Nat) (seen : List String),
      otherLoadedKinds (replay i stmts (fixedLoadsAux uk seen (collectLoads i stmts))) =
        otherLoadedKinds stmts := by
  induction stmts with
  | nil => intro i seen; rfl
  | cons s0 rest ih =>
      intro i seen
      rcases hl : loadFileOf s0 with _ | v
      · simp only [collectLoads, hl]
        rw [replay_cons_skip _ _ _ _ (fixedLoadsAux_index_gt uk seen i rest),
          otherLoadedKinds_cons, otherLoadedKinds_cons, ih (i + 1) seen]
      · by_cases hk : knownFilesB v = true
        · obtain ⟨x, args, fc, com, hs0, hargs⟩ : ∃ x args fc com,
              s0 = Expr.call x args fc com ∧ args ≠ [] := by
            obtain ⟨lc, first, rst, fc, com, heq, _⟩ := loadFileOf_inv s0 v hl
            exact ⟨_, _, _, _, heq, List.cons_ne_nil _ _⟩
          subst hs0
          simp only [collectLoads, hl, if_pos hk, fixedLoadsAux]
          cases hfx : fixLoad (some (Expr.call x args fc com)) v
              (if seen.contains v then [] else uk v) with
          | some w =>
              rw [replay_cons_hit_some i (Expr.call x args fc com) rest
                ⟨i, v, Expr.call x args fc com⟩ w
                (fixedLoadsAux uk (v :: seen) (collectLoads (i + 1) rest)) rfl,
                otherLoadedKinds_cons, otherLoadedKinds_cons, ih (i + 1) (v :: seen),
                otherSymsOf_managed _ v
                  (loadFileOf_fixLoad x args fc com v v _ w hl hfx) hk,
                otherSymsOf_managed _ v hl hk]
          | none =>
              rw [replay_cons_hit_none i (Expr.call x args fc com) rest
                ⟨i, v, Expr.call x args fc com⟩
                (fixedLoadsAux uk (v :: seen) (collectLoads (i + 1) rest)) rfl,
                ih (i + 1) (v :: seen), otherLoadedKinds_cons,
                otherSymsOf_managed _ v hl hk, List.nil_append]
        · simp only [collectLoads, hl, if_neg hk]
          rw [replay_cons_skip _ _ _ _ (fixedLoadsAux_index_gt uk seen i rest),
            otherLoadedKinds_cons, otherLoadedKinds_cons, ih (i + 1) seen]

theorem usedKindPairs_replay (uk : String → List String) (other : List String)
    (stmts : List Expr) :
    ∀ (i : Nat) (seen : List String),
      usedKindPairs (replay i stmts (fixedLoadsAux uk seen (collectLoads i stmts))) other =
        usedKindPairs stmts other := by
  induction stmts with
  | nil => intro i seen; rfl
  | cons s0 rest ih =>
      intro i seen
      rcases hl : loadFileOf s0 with _ | v
      · simp only [collectLoads, hl]
        rw [replay_cons_skip _ _ _ _ (fixedLoadsAux_index_gt uk seen i rest)]
        rcases hu : usedKindOf other s0 with _ | p
        · rw [usedKindPairs_cons_of_none _ _ _ hu,
            usedKindPairs_cons_of_none _ _ _ hu, ih (i + 1) seen]
        · rw [usedKindPairs_cons_of_some _ _ _ _ hu,
            usedKindPairs_cons_of_some _ _ _ _ hu, ih (i + 1) seen]
      · by_cases hk : knownFilesB v = true
        · obtain ⟨x, args, fc, com, hs0, hargs⟩ : ∃ x args fc com,
              s0 = Expr.call x args fc com ∧ args ≠ [] := by
            obtain ⟨lc, first, rst, fc, com, heq, _⟩ := loadFileOf_inv s0 v hl
            exact ⟨_, _, _, _, heq, List.cons_ne_nil _ _⟩
          subst hs0
          simp only [collectLoads, hl, if_pos hk, fixedLoadsAux]
          cases hfx : fixLoad (some (Expr.call x args fc com)) v
              (if seen.contains v then [] else uk v) with
          | some w =>
              rw [replay_cons_hit_some i (Expr.call x args fc com) rest
                ⟨i, v, Expr.call x args fc com⟩ w
                (fixedLoadsAux uk (v :: seen) (collectLoads (i + 1) rest)) rfl,
                usedKindPairs_cons_of_none _ _ _ (usedKindOf_load other _ v
                  (loadFileOf_fixLoad x args fc com v v _ w hl hfx)),
                usedKindPairs_cons_of_none _ _ _ (usedKindOf_load other _ v hl),
                ih (i + 1) (v :: seen)]
          | none =>
              rw [replay_cons_hit_none i (Expr.call x args fc com) rest
                ⟨i, v, Expr.call x args fc com⟩
                (fixedLoadsAux uk (v :: seen) (collectLoads (i + 1) rest)) rfl,
                ih (i + 1) (v :: seen),
                usedKindPairs_cons_of_none _ _ _ (usedKindOf_load other _ v hl)]
        · simp only [collectLoads, hl, if_neg hk]
          rw [replay_cons_skip _ _ _ _ (fixedLoadsAux_index_gt uk seen i rest),
            usedKindPairs_cons_of_none _ _ _ (usedKindOf_load other _ v hl),
            usedKindPairs_cons_of_none _ _ _ (usedKindOf_load other _ v hl),
            ih (i + 1) seen]

theorem newLoads_all_loads (f : File) :
    ∀ w ∈ newLoadsOf f, ∃ l ∈ knownLoads, loadFileOf w = some l.1 := by
  intro w hw
  obtain ⟨l, hl, hfl, _⟩ := mem_newFirstLoads _ _ w hw
  exact ⟨l, hl, loadFileOf_fixLoad_none _ _ _ hfl⟩

theorem otherLoaded_newLoads (f : File) : otherLoadedKinds (newLoadsOf f) = [] := by
  refine flatten_map_nil _ _ fun w hw => ?_
  obtain ⟨l, hl, hwl⟩ := newLoads_all_loads f w hw
  exact otherSymsOf_managed w l.1 hwl (knownLoads_files_known l hl)

theorem usedKindPairs_newLoads (f : File) (other : List String) :
    usedKindPairs (newLoadsOf f) other = [] := by
  rw [usedKindPairs_eq]
  rw [List.filterMap_eq_nil_iff]
  intro w hw
  obtain ⟨l, _, hwl⟩ := newLoads_all_loads f w hw
  exact usedKindOf_load other w l.1 hwl

theorem otherLoaded_FixLoads (f : File) :
    otherLoadedKinds (FixLoads f).stmts = otherLoadedKinds f.stmts := by
  rw [FixLoads_stmts_decomp, otherLoadedKinds_append, otherLoaded_newLoads,
    List.nil_append]
  show otherLoadedKinds (replay 0 f.stmts
    (fixedLoadsAux (ukOf f) [] (collectLoads 0 f.stmts))) = otherLoadedKinds f.stmts
  exact otherLoaded_replay (ukOf f) f.stmts 0 []

theorem usedKindPairs_FixLoads (f : File) (other : List String) :
    usedKindPairs (FixLoads f).stmts other = usedKindPairs f.stmts other := by
  rw [FixLoads_stmts_decomp, usedKindPairs_append, usedKindPairs_newLoads,
    List.nil_append]
  show usedKindPairs (replay 0 f.stmts
    (fixedLoadsAux (ukOf f) [] (collectLoads 0 f.stmts))) other = usedKindPairs f.stmts other
  exact usedKindPairs_replay (ukOf f) other f.stmts 0 []

theorem usedKindsFor_FixLoads (f : File) (F : String) :
    usedKindsFor (FixLoads f).stmts F = usedKindsFor f.stmts F := by
  rw [usedKindsFor, usedKindsFor, otherLoaded_FixLoads, usedKindPairs_FixLoads]

theorem loadSeq_append (a b : List Expr) :
    loadSeq (a ++ b) = loadSeq a ++ loadSeq b := by
  simp only [loadSeq, List.filterMap_append]

theorem loadSeq_FixLoads (f : File) :
    loadSeq (FixLoads f).stmts =
      loadSeq (newLoadsOf f) ++ keptOf (fixedSeq (ukOf f) [] (loadSeq f.stmts)) := by
  rw [FixLoads_stmts_decomp, loadSeq_append]
  show loadSeq (newLoadsOf f) ++ loadSeq (replay 0 f.stmts
      (fixedLoadsAux (ukOf f) [] (collectLoads 0 f.stmts))) = _
  rw [loadSeq_replay (ukOf f) f.stmts 0 []]

theorem loadSeq_newLoads (f : File) :
    loadSeq (newLoadsOf f) =
      knownLoads.filterMap fun l =>
        if (loadsOf f).any fun li => li.file = l.1 then none
        else (fixLoad none l.1 (ukOf f l.1)).map fun w => (l.1, w) :=
  loadSeq_nfl_aux (loadsOf f) (ukOf f) knownLoads knownLoads_files_known

theorem fixedSeq_mem_char (uk : String → List String) (P : List (String × Expr)) :
    ∀ (seen : List String) (q : (String × Expr) × Option Expr), q ∈ fixedSeq uk seen P →
      q.1 ∈ P ∧ ∃ kinds, (kinds = [] ∨ kinds = uk q.1.1) ∧
        q.2 = fixLoad (some q.1.2) q.1.1 kinds := by
  induction P with
  | nil => intro seen q hq; cases hq
  | cons pr rest ih =>
      intro seen q hq
      obtain ⟨F, o⟩ := pr
      rcases List.mem_cons.mp hq with h1 | h1
      · subst h1
        refine ⟨List.mem_cons_self _ _,
          if seen.contains F then [] else uk F, ?_, rfl⟩
        by_cases hc : seen.contains F = true
        · rw [if_pos hc]
          exact Or.inl rfl
        · rw [if_neg hc]
          exact Or.inr rfl
      · obtain ⟨hmem, kinds, hk, he⟩ := ih (F :: seen) q h1
        exact ⟨List.mem_cons_of_mem _ hmem, kinds, hk, he⟩

theorem fixedSeq_first (uk : String → List String) (F : String) (P : List (String × Expr)) :
    ∀ (seen : List String), seen.contains F = false → (∃ pr ∈ P, pr.1 = F) →
      ∃ o, ((F, o), fixLoad (some o) F (uk F)) ∈ fixedSeq uk seen P := by
  induction P with
  | nil =>
      rintro seen _ ⟨pr, hpr, _⟩
      cases hpr
  | cons pr rest ih =>
      rintro seen hseen ⟨pr', hpr', hprF⟩
      obtain ⟨v, o⟩ := pr
      by_cases hvF : v = F
      · subst hvF
        refine ⟨o, List.mem_cons.mpr (Or.inl ?_)⟩
        rw [if_neg fun h => Bool.false_ne_true (hseen ▸ h)]
      · have hFs : F ∉ seen := fun hmem =>
          Bool.false_ne_true (hseen ▸ (contains_iff_mem_str seen F).mpr hmem)
        have hseen' : (v :: seen).contains F = false := by
          apply Bool.eq_false_iff.mpr
          intro h
          rcases List.mem_cons.mp ((contains_iff_mem_str _ F).mp h) with h1 | h1
          · exact hvF h1.symm
          · exact hFs h1
        have hpr'' : pr' ∈ rest := by
          rcases List.mem_cons.mp hpr' with h1 | h1
          · exact absurd (h1 ▸ hprF : (v, o).1 = F) hvF
          · exact h1
        obtain ⟨o', ho'⟩ := ih (v :: seen) hseen' ⟨pr', hpr'', hprF⟩
        exact ⟨o', List.mem_cons_of_mem _ ho'⟩

theorem any_map_eq {α β : Type} (f : α → β) (p : β → Bool) (l : List α) :
    (l.map f).any p = l.any fun a => p (f a) := by
  induction l with
  | nil => rfl
  | cons a rest ih => simp [ih]

theorem collectLoads_any_file (stmts : List Expr) (F : String) (i : Nat) :
    ((collectLoads i stmts).any fun li => li.file = F) =
      ((loadSeq stmts).any fun pr => pr.1 = F) := by
  rw [← collectLoads_pairs stmts i, any_map_eq]

/-- C2: after `FixLoads`, for each registry file the set of registry symbols
loaded from that file by its load statements equals exactly the set of
registry symbols owned by that file that occur as the callee kind of a
top-level call and are not loaded from a non-registry file (computed on the
output file, which `FixLoads` leaves with the same call kinds and
externally-loaded set as the input). -/
theorem C2_load_correctness (f : File) (F : String) (hF : knownFilesB F = true) :
    ∀ s, s ∈ loadedKnownSyms (FixLoads f).stmts F ↔
      s ∈ usedKindsFor (FixLoads f).stmts F := by
  intro s
  rw [usedKindsFor_FixLoads]
  rw [mem_loadedKnownSyms]
  constructor
  · rintro ⟨e, he, hef, hes⟩
    have hmem : (F, e) ∈ loadSeq (FixLoads f).stmts :=
      (mem_loadSeq _ F e).mpr ⟨he, hef, hF⟩
    rw [loadSeq_FixLoads, List.mem_append] at hmem
    rcases hmem with hmem | hmem
    · rw [loadSeq_newLoads] at hmem
      obtain ⟨l, hl, hle⟩ := List.mem_filterMap.mp hmem
      by_cases hany : ((loadsOf f).any fun li => li.file = l.1) = true
      · rw [if_pos hany] at hle
        cases hle
      · rw [if_neg hany] at hle
        rcases hfl : fixLoad none l.1 (ukOf f l.1) with _ | w
        · rw [hfl] at hle
          cases hle
        · rw [hfl, Option.map_some'] at hle
          injection hle with h12
          injection h12 with h1 h2
          subst h2
          have hK : ∀ k ∈ ukOf f l.1, (knownKind? k).isSome = true := fun k hk => by
            rw [usedKindsFor_known f.stmts l.1 k hk]; rfl
          have hsk := (knownSyms_fixLoad_none l.1 (ukOf f l.1) _ hK hfl s).mp hes
          rw [h1] at hsk
          exact hsk
    · rw [mem_keptOf] at hmem
      obtain ⟨q, hq, hq1, hq2⟩ := hmem
      obtain ⟨⟨v, o⟩, fx⟩ := q
      obtain ⟨hqmem, kinds, hkinds, hqfix⟩ :=
        fixedSeq_mem_char (ukOf f) (loadSeq f.stmts) [] _ hq
      have hoload : loadFileOf o = some v := ((mem_loadSeq f.stmts v o).mp hqmem).2.1
      obtain ⟨lc, first, rst, fc, com, hoe, _⟩ := loadFileOf_inv o v hoload
      subst hoe
      rw [hq2] at hqfix
      have hfix : fixLoad (some (Expr.call (Expr.lit "load" lc) (first :: rst) fc com))
          v kinds = some e := hqfix.symm
      have hK : ∀ k ∈ kinds, (knownKind? k).isSome = true := by
        rcases hkinds with h | h
        · subst h
          intro k hk
          cases hk
        · subst h
          intro k hk
          rw [usedKindsFor_known f.stmts v k hk]
          rfl
      have hsK : s ∈ kinds :=
        (knownSyms_fixLoad_call _ _ fc com v kinds e
          (List.cons_ne_nil _ _) hK hfix s).mp hes
      rcases hkinds with h | h
      · subst h
        cases hsK
      · subst h
        rw [← (hq1 : v = F)]
        exact hsK
  · intro hs
    by_cases hloads : ∃ pr ∈ loadSeq f.stmts, pr.1 = F
    · obtain ⟨o, ho⟩ := fixedSeq_first (ukOf f) F (loadSeq f.stmts) [] rfl hloads
      have hoload : loadFileOf o = some F :=
        ((mem_loadSeq f.stmts F o).mp
          (fixedSeq_mem_char (ukOf f) (loadSeq f.stmts) [] _ ho).1).2.1
      obtain ⟨lc, first, rst, fc, com, hoe, _⟩ := loadFileOf_inv o F hoload
      subst hoe
      rcases hfx : fixLoad (some (Expr.call (Expr.lit "load" lc) (first :: rst) fc com))
          F (ukOf f F) with _ | w
      · have hnil : usedKindsFor f.stmts F = [] :=
          fixLoad_call_none _ _ fc com F (ukOf f F) (List.cons_ne_nil _ _) hfx
        rw [hnil] at hs
        cases hs
      · have hK : ∀ k ∈ ukOf f F, (knownKind? k).isSome = true := fun k hk => by
          rw [usedKindsFor_known f.stmts F k hk]; rfl
        have hsw : s ∈ knownSymsOfLoad w :=
          (knownSyms_fixLoad_call _ _ fc com F (ukOf f F) w
            (List.cons_ne_nil _ _) hK hfx s).mpr hs
        have hkept : (F, w) ∈ keptOf (fixedSeq (ukOf f) [] (loadSeq f.stmts)) := by
          rw [mem_keptOf]
          refine ⟨((F, Expr.call (Expr.lit "load" lc) (first :: rst) fc com),
            fixLoad (some (Expr.call (Expr.lit "load" lc) (first :: rst) fc com))
              F (ukOf f F)), ho, rfl, ?_⟩
          rw [hfx]
        have hgmem : (F, w) ∈ loadSeq (FixLoads f).stmts := by
          rw [loadSeq_FixLoads, List.mem_append]
          exact Or.inr hkept
        obtain ⟨hwin, hwf, _⟩ := (mem_loadSeq _ F w).mp hgmem
        exact ⟨w, hwin, hwf, hsw⟩
    · obtain ⟨l, hl, hlF⟩ : ∃ l ∈ knownLoads, l.1 = F := by
        obtain ⟨l, hl, hh⟩ := List.any_eq_true.mp hF
        exact ⟨l, hl, of_decide_eq_true hh⟩
      have hukne : ukOf f F ≠ [] := fun hnil => by
        have h0 : usedKindsFor f.stmts F = [] := hnil
        rw [h0] at hs
        cases hs
      rcases hfl : fixLoad none F (ukOf f F) with _ | w
      · exact absurd ((fixLoad_none_none_iff F (ukOf f F)).mp hfl) hukne
      · have hany' : ¬ ((loadSeq f.stmts).any fun pr => pr.1 = F) = true := by
          intro h
          obtain ⟨pr, hpr, hprF⟩ := List.any_eq_true.mp h
          exact hloads ⟨pr, hpr, of_decide_eq_true hprF⟩
        have hany : ((loadsOf f).any fun li => li.file = F) = false := by
          show ((collectLoads 0 f.stmts).any fun li => li.file = F) = false
          rw [collectLoads_any_file f.stmts F 0]
          exact Bool.eq_false_iff.mpr hany'
        have hnmem : (F, w) ∈ loadSeq (newLoadsOf f) := by
          rw [loadSeq_newLoads]
          refine List.mem_filterMap.mpr ⟨l, hl, ?_⟩
          rw [hlF]
          rw [if_neg (by simp [hany]), hfl, Option.map_some']
        have hgmem : (F, w) ∈ loadSeq (FixLoads f).stmts := by
          rw [loadSeq_FixLoads, List.mem_append]
          exact Or.inl hnmem
        obtain ⟨hwin, hwf, _⟩ := (mem_loadSeq _ F w).mp hgmem
        have hK : ∀ k ∈ ukOf f F, (knownKind? k).isSome = true := fun k hk => by
          rw [usedKindsFor_known f.stmts F k hk]; rfl
        exact ⟨w, hwin, hwf, (knownSyms_fixLoad_none F (ukOf f F) w hK hfl s).mpr hs⟩

theorem C2_load_correctness_witness :
    knownFilesB "@io_bazel_rules_go//go:def.bzl" = true ∧
      ∀ s, s ∈ loadedKnownSyms
          (FixLoads ⟨[callE "go_library" [kvA "name" (eStr "go_default_library")]]⟩).stmts
          "@io_bazel_rules_go//go:def.bzl" ↔
        s ∈ usedKindsFor
          (FixLoads ⟨[callE "go_library" [kvA "name" (eStr "go_default_library")]]⟩).stmts
          "@io_bazel_rules_go//go:def.bzl" :=
  ⟨by decide, C2_load_correctness
    ⟨[callE "go_library" [kvA "name" (eStr "go_default_library")]]⟩
    "@io_bazel_rules_go//go:def.bzl" (by decide)⟩

theorem contains_cons_str (a : String) (l : List String) (s : String) :
    (a :: l).contains s = true ↔ s = a ∨ s ∈ l := by
  rw [contains_iff_mem_str]
  exact List.mem_cons

theorem ukOf_FixLoads (f : File) : ukOf (FixLoads f) = ukOf f :=
  funext fun F => usedKindsFor_FixLoads f F

theorem fixedSeq_id_of_fresh (uk : String → List String) (P : List (String × Expr)) :
    ∀ (seen : List String), (P.map Prod.fst).Nodup →
      (∀ pr ∈ P, seen.contains pr.1 = false) →
      (∀ pr ∈ P, fixLoad none pr.1 (uk pr.1) = some pr.2) →
      ∀ q ∈ fixedSeq uk seen P, q.2 = some q.1.2 := by
  induction P with
  | nil => intro seen _ _ _ q hq; cases hq
  | cons pr rest ih =>
      intro seen hnd hfresh hfix q hq
      obtain ⟨F, o⟩ := pr
      have hnd' : F ∉ rest.map Prod.fst ∧ (rest.map Prod.fst).Nodup :=
        List.nodup_cons.mp hnd
      rcases List.mem_cons.mp hq with h1 | h1
      · subst h1
        show fixLoad (some o) F (if seen.contains F then [] else uk F) = some o
        rw [if_neg fun h =>
          Bool.false_ne_true ((hfresh (F, o) (List.mem_cons_self _ _)) ▸ h)]
        exact fixLoad_idem none F (uk F) o (fun x args fc com h => by cases h)
          (hfix (F, o) (List.mem_cons_self _ _))
      · apply ih (F :: seen) hnd'.2 ?_ (fun pr hpr => hfix pr (List.mem_cons_of_mem _ hpr)) q h1
        intro pr' hpr'
        apply Bool.eq_false_iff.mpr
        intro h
        rcases (contains_cons_str F seen pr'.1).mp h with h2 | h2
        · exact hnd'.1 (h2 ▸ List.mem_map_of_mem Prod.fst hpr')
        · exact Bool.false_ne_true
            ((hfresh pr' (List.mem_cons_of_mem _ hpr')) ▸
              (contains_iff_mem_str seen pr'.1).mpr h2)

theorem map_fst_filterMap_sublist {α : Type} (g : α → Option (String × Expr))
    (key : α → String) (L : List α)
    (hg : ∀ a p, g a = some p → p.1 = key a) :
    ((L.filterMap g).map Prod.fst).Sublist (L.map key) := by
  induction L with
  | nil => simp
  | cons a rest ih =>
      rw [List.filterMap_cons, List.map_cons]
      rcases hga : g a with _ | p
      · exact ih.cons _
      · rw [List.map_cons, hg a p hga]
        exact ih.cons₂ _

theorem knownLoads_files_nodup : (knownLoads.map fun l => l.1).Nodup := by decide

theorem nfl_no_orig_load (f : File) (pr : String × Expr)
    (h : pr ∈ loadSeq (newLoadsOf f)) :
    (∀ q ∈ loadSeq f.stmts, q.1 ≠ pr.1) ∧
      fixLoad none pr.1 (ukOf f pr.1) = some pr.2 := by
  rw [loadSeq_newLoads] at h
  obtain ⟨l, hl, hle⟩ := List.mem_filterMap.mp h
  by_cases hany : ((loadsOf f).any fun li => li.file = l.1) = true
  · rw [if_pos hany] at hle
    cases hle
  · rw [if_neg hany] at hle
    rcases hfl : fixLoad none l.1 (ukOf f l.1) with _ | w
    · rw [hfl] at hle
      cases hle
    · rw [hfl, Option.map_some'] at hle
      obtain rfl := Option.some.inj hle
      constructor
      · intro q hq hqF
        apply hany
        show ((collectLoads 0 f.stmts).any fun li => li.file = l.1) = true
        rw [collectLoads_any_file f.stmts l.1 0]
        exact List.any_eq_true.mpr ⟨q, hq, decide_eq_true hqF⟩
      · exact hfl

theorem nfl_files_nodup (f : File) : ((loadSeq (newLoadsOf f)).map Prod.fst).Nodup := by
  rw [loadSeq_newLoads]
  refine List.Nodup.sublist ?_ knownLoads_files_nodup
  apply map_fst_filterMap_sublist
  intro a p hg
  by_cases hany : ((loadsOf f).any fun li => li.file = a.1) = true
  · rw [if_pos hany] at hg
    cases hg
  · rw [if_neg hany] at hg
    rcases hfl : fixLoad none a.1 (ukOf f a.1) with _ | w
    · rw [hfl] at hg
      cases hg
    · rw [hfl, Option.map_some'] at hg
      obtain rfl := Option.some.inj hg
      rfl

theorem mem_foldl_cons_fst (A : List (String × Expr)) :
    ∀ (seen : List String) (F : String),
      F ∈ A.foldl (fun s pr => pr.1 :: s) seen ↔ F ∈ seen ∨ ∃ pr ∈ A, pr.1 = F := by
  induction A with
  | nil => intro seen F; simp
  | cons pr rest ih =>
      intro seen F
      rw [List.foldl_cons, ih (pr.1 :: seen) F]
      constructor
      · rintro (h | h)
        · rcases List.mem_cons.mp h with h1 | h1
          · exact Or.inr ⟨pr, List.mem_cons_self _ _, h1.symm⟩
          · exact Or.inl h1
        · obtain ⟨pr', hpr', hF⟩ := h
          exact Or.inr ⟨pr', List.mem_cons_of_mem _ hpr', hF⟩
      · rintro (h | h)
        · exact Or.inl (List.mem_cons_of_mem _ h)
        · obtain ⟨pr', hpr', hF⟩ := h
          rcases List.mem_cons.mp hpr' with h1 | h1
          · exact Or.inl (List.mem_cons.mpr (Or.inl (by rw [h1] at hF; exact hF.symm)))
          · exact Or.inr ⟨pr', h1, hF⟩

theorem fixedSeq_align (uk : String → List String) (P : List (String × Expr)) :
    ∀ (seen1 seen2 : List String),
      (∀ pr ∈ P, ∃ x args fc com, pr.2 = Expr.call x args fc com ∧ args ≠ []) →
      (∀ F, seen1.contains F = true → seen2.contains F = true ∨ uk F = []) →
      (∀ F, seen2.contains F = true →
        seen1.contains F = true ∨ ∀ pr ∈ P, pr.1 ≠ F) →
      ∀ q ∈ fixedSeq uk seen2 (keptOf (fixedSeq uk seen1 P)), q.2 = some q.1.2 := by
  induction P with
  | nil => intro seen1 seen2 _ _ _ q hq; cases hq
  | cons pr rest ih =>
      intro seen1 seen2 hP hInv1 hInv2 q hq
      obtain ⟨F0, o0⟩ := pr
      obtain ⟨x, args, fc, com, ho0, hargs⟩ := hP (F0, o0) (List.mem_cons_self _ _)
      have ho0' : o0 = Expr.call x args fc com := ho0
      subst ho0'
      have ho : ∀ x' args' fc' com',
          some (Expr.call x args fc com) = some (Expr.call x' args' fc' com') →
          args' ≠ [] := by
        intro x' args' fc' com' he
        injection he with he'
        rw [Expr.call.injEq] at he'
        rw [← he'.2.1]
        exact hargs
      have hq' : q ∈ fixedSeq uk seen2 (keptOf (
          ((F0, Expr.call x args fc com),
            fixLoad (some (Expr.call x args fc com)) F0
              (if seen1.contains F0 then [] else uk F0)) ::
          fixedSeq uk (F0 :: seen1) rest)) := hq
      rcases hfx : fixLoad (some (Expr.call x args fc com)) F0
          (if seen1.contains F0 then [] else uk F0) with _ | w
      · rw [hfx, keptOf_cons_none] at hq'
        have hukF0 : seen1.contains F0 = true ∨ uk F0 = [] := by
          by_cases hc : seen1.contains F0 = true
          · exact Or.inl hc
          · right
            refine fixLoad_call_none x args fc com F0 (uk F0) hargs ?_
            rw [if_neg hc] at hfx
            exact hfx
        apply ih (F0 :: seen1) seen2
          (fun pr hpr => hP pr (List.mem_cons_of_mem _ hpr)) ?_ ?_ q hq'
        · intro F h
          rcases (contains_cons_str F0 seen1 F).mp h with h1 | h1
          · subst h1
            rcases hukF0 with h2 | h2
            · exact hInv1 F h2
            · exact Or.inr h2
          · exact hInv1 F ((contains_iff_mem_str seen1 F).mpr h1)
        · intro F h
          rcases hInv2 F h with h1 | h1
          · exact Or.inl ((contains_cons_str _ _ _).mpr
              (Or.inr ((contains_iff_mem_str _ F).mp h1)))
          · exact Or.inr fun pr hpr => h1 pr (List.mem_cons_of_mem _ hpr)
      · rw [hfx, keptOf_cons_some] at hq'
        have hq'' : q ∈ ((F0, w), fixLoad (some w) F0
            (if seen2.contains F0 then [] else uk F0)) ::
          fixedSeq uk (F0 :: seen2) (keptOf (fixedSeq uk (F0 :: seen1) rest)) := hq'
        rcases List.mem_cons.mp hq'' with h1 | h1
        · subst h1
          show fixLoad (some w) F0 (if seen2.contains F0 then [] else uk F0) = some w
          by_cases hc1 : seen1.contains F0 = true
          · rw [if_pos hc1] at hfx
            have hk2 : (if seen2.contains F0 then [] else uk F0) = ([] : List String) := by
              rcases hInv1 F0 hc1 with h2 | h2
              · rw [if_pos h2]
              · by_cases hc2 : seen2.contains F0 = true
                · rw [if_pos hc2]
                · rw [if_neg hc2]
                  exact h2
            rw [hk2]
            exact fixLoad_idem (some (Expr.call x args fc com)) F0 [] w ho hfx
          · rw [if_neg hc1] at hfx
            have hc2 : ¬ seen2.contains F0 = true := by
              intro h2
              rcases hInv2 F0 h2 with h3 | h3
              · exact hc1 h3
              · exact h3 (F0, Expr.call x args fc com) (List.mem_cons_self _ _) rfl
            rw [if_neg hc2]
            exact fixLoad_idem (some (Expr.call x args fc com)) F0 (uk F0) w ho hfx
        · apply ih (F0 :: seen1) (F0 :: seen2)
            (fun pr hpr => hP pr (List.mem_cons_of_mem _ hpr)) ?_ ?_ q h1
          · intro F h
            rcases (contains_cons_str F0 seen1 F).mp h with h1' | h1'
            · exact Or.inl ((contains_cons_str _ _ _).mpr (Or.inl h1'))
            · rcases hInv1 F ((contains_iff_mem_str seen1 F).mpr h1') with h2 | h2
              · exact Or.inl ((contains_cons_str _ _ _).mpr
                  (Or.inr ((contains_iff_mem_str _ F).mp h2)))
              · exact Or.inr h2
          · intro F h
            rcases (contains_cons_str F0 seen2 F).mp h with h1' | h1'
            · exact Or.inl ((contains_cons_str _ _ _).mpr (Or.inl h1'))
            · rcases hInv2 F ((contains_iff_mem_str seen2 F).mpr h1') with h2 | h2
              · exact Or.inl ((contains_cons_str _ _ _).mpr
                  (Or.inr ((contains_iff_mem_str _ F).mp h2)))
              · exact Or.inr fun pr hpr => h2 pr (List.mem_cons_of_mem _ hpr)

theorem fixedSeq_of_FixLoads (f : File) :
    ∀ q ∈ fixedSeq (ukOf f) [] (loadSeq (FixLoads f).stmts), q.2 = some q.1.2 := by
  intro q hq
  rw [loadSeq_FixLoads, fixedSeq_append] at hq
  rcases List.mem_append.mp hq with h1 | h1
  · exact fixedSeq_id_of_fresh (ukOf f) (loadSeq (newLoadsOf f)) []
      (nfl_files_nodup f) (fun pr _ => rfl)
      (fun pr hpr => (nfl_no_orig_load f pr hpr).2) q h1
  · apply fixedSeq_align (ukOf f) (loadSeq f.stmts) []
      ((loadSeq (newLoadsOf f)).foldl (fun s pr => pr.1 :: s) []) ?_ ?_ ?_ q h1
    · intro pr hpr
      obtain ⟨v, o⟩ := pr
      have hld := ((mem_loadSeq f.stmts v o).mp hpr).2.1
      obtain ⟨lc, first, rst, fc, com, hoe, _⟩ := loadFileOf_inv o v hld
      exact ⟨_, _, _, _, hoe, List.cons_ne_nil _ _⟩
    · intro F h
      exact absurd h Bool.false_ne_true
    · intro F h
      right
      have hmemf := (mem_foldl_cons_fst (loadSeq (newLoadsOf f)) [] F).mp
        ((contains_iff_mem_str _ F).mp h)
      rcases hmemf with h2 | h2
      · cases h2
      · obtain ⟨pr, hpr, hprF⟩ := h2
        intro q' hq' hq'F
        exact (nfl_no_orig_load f pr hpr).1 q' hq' (by rw [hq'F, hprF])

theorem newLoads_FixLoads_nil (f : File) : newLoadsOf (FixLoads f) = [] := by
  show newFirstLoads (loadsOf (FixLoads f)) (ukOf (FixLoads f)) = []
  rw [ukOf_FixLoads]
  show (knownLoads.filterMap fun l =>
    if (loadsOf (FixLoads f)).any fun li => li.file = l.1 then none
    else fixLoad none l.1 (ukOf f l.1)) = []
  apply List.filterMap_eq_nil_iff.mpr
  intro l hl
  by_cases hany : ((loadsOf (FixLoads f)).any fun li => li.file = l.1) = true
  · rw [if_pos hany]
  · rw [if_neg hany]
    have hnog : ∀ pr ∈ loadSeq (FixLoads f).stmts, pr.1 ≠ l.1 := by
      intro pr hpr hprF
      apply hany
      show ((collectLoads 0 (FixLoads f).stmts).any fun li => li.file = l.1) = true
      rw [collectLoads_any_file]
      exact List.any_eq_true.mpr ⟨pr, hpr, decide_eq_true hprF⟩
    by_cases hloads : ∃ pr ∈ loadSeq f.stmts, pr.1 = l.1
    · obtain ⟨o, ho⟩ := fixedSeq_first (ukOf f) l.1 (loadSeq f.stmts) [] rfl hloads
      have hoload : loadFileOf o = some l.1 :=
        ((mem_loadSeq f.stmts l.1 o).mp
          (fixedSeq_mem_char (ukOf f) (loadSeq f.stmts) [] _ ho).1).2.1
      obtain ⟨lc, first, rst, fc, com, hoe, _⟩ := loadFileOf_inv o l.1 hoload
      subst hoe
      rcases hfx : fixLoad (some (Expr.call (Expr.lit "load" lc) (first :: rst) fc com))
          l.1 (ukOf f l.1) with _ | w
      · have hnil : ukOf f l.1 = [] :=
          fixLoad_call_none _ _ fc com l.1 (ukOf f l.1) (List.cons_ne_nil _ _) hfx
        rw [hnil]
        exact (fixLoad_none_none_iff l.1 []).mpr rfl
      · exfalso
        have hkept : (l.1, w) ∈ keptOf (fixedSeq (ukOf f) [] (loadSeq f.stmts)) := by
          rw [mem_keptOf]
          exact ⟨_, ho, rfl, by rw [hfx]⟩
        have hmg : (l.1, w) ∈ loadSeq (FixLoads f).stmts := by
          rw [loadSeq_FixLoads, List.mem_append]
          exact Or.inr hkept
        exact hnog (l.1, w) hmg rfl
    · rcases hfl : fixLoad none l.1 (ukOf f l.1) with _ | w
      · rfl
      · exfalso
        have hany1 : ((loadsOf f).any fun li => li.file = l.1) = false := by
          show ((collectLoads 0 f.stmts).any fun li => li.file = l.1) = false
          rw [collectLoads_any_file]
          apply Bool.eq_false_iff.mpr
          intro h
          obtain ⟨pr, hpr, hprF⟩ := List.any_eq_true.mp h
          exact hloads ⟨pr, hpr, of_decide_eq_true hprF⟩
        have hnmem : (l.1, w) ∈ loadSeq (newLoadsOf f) := by
          rw [loadSeq_newLoads]
          refine List.mem_filterMap.mpr ⟨l, hl, ?_⟩
          rw [if_neg (by simp [hany1]), hfl, Option.map_some']
        have hmg : (l.1, w) ∈ loadSeq (FixLoads f).stmts := by
          rw [loadSeq_FixLoads, List.mem_append]
          exact Or.inl hnmem
        exact hnog (l.1, w) hmg rfl

theorem FixLoads_unchanged_of (g : File)
    (h1 : newFirstLoads (collectLoads 0 g.stmts)
      (fun file => usedKindsFor g.stmts file) = [])
    (h2 : ∀ q ∈ fixedLoadsAux (fun file => usedKindsFor g.stmts file) []
      (collectLoads 0 g.stmts), q.2 = some q.1.old) :
    FixLoads g = g := by
  simp only [FixLoads]
  rw [h1]
  have hflag : ((fixedLoadsAux (fun file => usedKindsFor g.stmts file) []
      (collectLoads 0 g.stmts)).any fun q => q.2 ≠ some q.1.old) = false := by
    apply Bool.eq_false_iff.mpr
    intro h
    obtain ⟨q, hq, hqd⟩ := List.any_eq_true.mp h
    exact (of_decide_eq_true hqd) (h2 q hq)
  rw [hflag]
  simp

/-- C3: the Load Fixer is idempotent: applying `FixLoads` twice yields the
same file as applying it once. -/
theorem C3_FixLoads_idempotent (f : File) : FixLoads (FixLoads f) = FixLoads f := by
  apply FixLoads_unchanged_of
  · exact newLoads_FixLoads_nil f
  · intro q hq
    have hmem : ((q.1.file, q.1.old), q.2) ∈
        fixedSeq (ukOf (FixLoads f)) [] ((collectLoads 0 (FixLoads f).stmts).map
          fun li => (li.file, li.old)) := by
      rw [← fixedSeq_proj]
      exact List.mem_map_of_mem _ hq
    rw [collectLoads_pairs, ukOf_FixLoads] at hmem
    exact fixedSeq_of_FixLoads f _ hmem
